import Mathlib

/-!
Verification development for the indexed Merkle tree implementation
(`IndexedMerkleTree` in `indexed_merkle_tree.cpp`, incremental variant with
dirty/clean node statuses).

Modelling conventions:
* `barretenberg::fr` field elements are modelled as canonical natural numbers
  (`Nat`); the C++ `(uint64_t)` casts appearing in `update_element` are
  modelled as reduction modulo `2^64` (`u64`), and `fr` equality with the
  literal `0` is exact equality on the canonical value.
* `std::vector<fr> hashes_` and `std::vector<node_status> hstats_` are
  modelled extensionally as functions `Nat → Nat` / `Nat → node_status`
  together with the fixed size `2 * total_size_ - 2` established by the
  constructor's `resize` (the size never changes afterwards, so every read
  of `hashes_.size()` in the source is modelled by that expression).
* `std::vector<leaf> leaves_` is modelled as `List leaf`; `push_back` is
  append, and `leaves_.size()` is `List.length`.
* The `while (true)` scan inside `update_element` is modelled with explicit
  fuel `leaves_.length`; exhausted fuel (which on the states reachable by
  the public API never happens, as proved below) is modelled as `none`.
* Shift `1 << k` in the level-offset table construction is modelled as the
  exact power `2 ^ k`.
* The hash primitives live in `<stdlib/merkle_tree/hash.hpp>` and `leaf.hpp`,
  which are not part of this repository's sources.  Modelled from the spec:
  the spec treats them as one opaque deterministic one-argument hash
  (`leaf.hash() = hash(value ‖ nextIndex ‖ nextValue)`) and one opaque
  deterministic two-argument compression function used both by
  `compress_pair` and `compress_native`; they are parameters `hashLeaf`
  and `compress` of the whole development.
-/

namespace IMT

/-- Leaf pre-image `{value, nextIndex, nextValue}` (struct `leaf` from
`leaf.hpp`, whose fields are read and written by `update_element`). -/
structure leaf where
  value : Nat
  nextIndex : Nat
  nextValue : Nat
deriving DecidableEq

/-- The zero leaf `{0, 0, 0}`. -/
def zeroLeaf : leaf := ⟨0, 0, 0⟩

/-- `enum class node_status` from `indexed_merkle_tree.hpp`. -/
inductive node_status where
  | DIRTY
  | CLEAN
deriving DecidableEq

/-- The `(uint64_t)` cast applied to an `fr` value: the low 64 bits of the
canonical value. -/
def u64 (x : Nat) : Nat := x % 2 ^ 64

/-- State of an `IndexedMerkleTree` object (the data members of the C++
class). -/
structure Tree where
  depth_ : Nat
  total_size_ : Nat
  root_ : Nat
  leaves_ : List leaf
  hashes_ : Nat → Nat
  level_str_idxs_ : List Nat
  hstats_ : Nat → node_status

/-- Pointwise update of a function-modelled vector (`v[i] = x`). -/
def upd {α : Type} (f : Nat → α) (i : Nat) (x : α) : Nat → α :=
  fun j => if j = i then x else f j

section Ops

variable (hashLeaf : leaf → Nat) (compress : Nat → Nat → Nat)

/-- The inner lookup loop of `build_hashes_from_leaves`: scans
`level_str_idxs_` and keeps the last level start that is `≤ i`, together
with the previous level's start. -/
def locateLevel (ls : List Nat) (i : Nat) : Nat × Nat :=
  (List.range ls.length).foldl
    (fun acc l =>
      if ls.getD l 0 ≤ i then
        (ls.getD l 0, if 0 < l then ls.getD (l - 1) 0 else acc.2)
      else acc)
    (0, 0)

/-- One iteration of the loop body of `build_hashes_from_leaves` at flat
index `i`: recompute `hashes_[i] = compress_pair(hashes_[rch], hashes_[lch])`
if either child is `DIRTY`, mark the children `CLEAN` and the node `DIRTY`. -/
def buildStep (ls : List Nat) (st : (Nat → Nat) × (Nat → node_status)) (i : Nat) :
    (Nat → Nat) × (Nat → node_status) :=
  let level_str_idx := (locateLevel ls i).1
  let prev_level_str_idx := (locateLevel ls i).2
  let in_level_idx := i - level_str_idx
  let rch_idx := prev_level_str_idx + in_level_idx * 2
  let lch_idx := rch_idx + 1
  let rchld := st.1 rch_idx
  let lchld := st.1 lch_idx
  if st.2 rch_idx = node_status.DIRTY ∨ st.2 lch_idx = node_status.DIRTY then
    (upd st.1 i (compress rchld lchld),
     upd (upd (upd st.2 rch_idx node_status.CLEAN) lch_idx node_status.CLEAN) i
       node_status.DIRTY)
  else st

/-- `IndexedMerkleTree::build_hashes_from_leaves`: one linear pass over the
internal flat indices `total_size_ ≤ i < hashes_.size() = 2 * total_size_ - 2`. -/
def build_hashes_from_leaves (t : Tree) : Tree :=
  let res :=
    (List.range' t.total_size_ (2 * t.total_size_ - 2 - t.total_size_)).foldl
      (buildStep compress t.level_str_idxs_) (t.hashes_, t.hstats_)
  { t with hashes_ := res.1, hstats_ := res.2 }

/-- `IndexedMerkleTree::init_hashes`: fill all `total_size_` leaf slots with
`leaf({0,0,0}).hash()`, then run `build_hashes_from_leaves`. -/
def init_hashes (t : Tree) : Tree :=
  let zleaf_hash := hashLeaf zeroLeaf
  let hashes1 := (List.range t.total_size_).foldl
    (fun h i => upd h i zleaf_hash) t.hashes_
  build_hashes_from_leaves compress { t with hashes_ := hashes1 }

/-- `IndexedMerkleTree::calculate_root`:
`root_ = compress_native(hashes_[hs - 2], hashes_[hs - 1])`. -/
def calculate_root (t : Tree) : Tree :=
  { t with root_ := compress (t.hashes_ (2 * t.total_size_ - 2 - 2))
                             (t.hashes_ (2 * t.total_size_ - 2 - 1)) }

/-- The level-offset table built by the constructor:
`level_str_idxs_ = {0}`, then for `i = 1 .. depth_-1`:
`level_str_idxs_.push_back(prev + (1 << (depth_ - (i - 1))))`. -/
def levelStrIdxs (depth : Nat) : List Nat :=
  (List.range' 1 (depth - 1)).foldl
    (fun ls i => ls ++ [ls.getD (i - 1) 0 + 2 ^ (depth - (i - 1))]) [0]

/-- `IndexedMerkleTree::IndexedMerkleTree(size_t depth)`: the constructor
(`ASSERT(depth >= 1 && depth <= 32)` is a run-time assertion; constructing
is modelled for every `depth`, claims quantify over `1 ≤ depth ≤ 32`). -/
def construct (depth : Nat) : Tree :=
  let total_size := 2 ^ depth
  let t0 : Tree :=
    { depth_ := depth
      total_size_ := total_size
      root_ := 0
      leaves_ := [zeroLeaf]
      hashes_ := fun _ => 0
      level_str_idxs_ := levelStrIdxs depth
      hstats_ := fun _ => node_status.DIRTY }
  calculate_root compress (init_hashes hashLeaf compress t0)

/-- `IndexedMerkleTree::get_hash_path(size_t idx)`: builds the `depth_`-long
vector of sibling pairs; `path[0]` pairs `idx` with its sibling by parity,
then `idx = level_str_idxs_[1] + idx / 2` at each higher level.  The member
function writes no state; it is modelled as returning the path together
with the (unchanged) object state. -/
def get_hash_path (t : Tree) (idx : Nat) : List (Nat × Nat) × Tree :=
  let pair0 :=
    if idx % 2 = 1 then (t.hashes_ (idx - 1), t.hashes_ idx)
    else (t.hashes_ idx, t.hashes_ (idx + 1))
  let res := (List.range' 1 (t.depth_ - 1)).foldl
    (fun (acc : List (Nat × Nat) × Nat) _ =>
      let parent_idx := acc.2 / 2
      let idx1 := t.level_str_idxs_.getD 1 0 + parent_idx
      let pr :=
        if idx1 % 2 = 1 then (t.hashes_ (idx1 - 1), t.hashes_ idx1)
        else (t.hashes_ idx1, t.hashes_ (idx1 + 1))
      (acc.1 ++ [pr], idx1))
    ([pair0], idx)
  (res.1, t)

/-- `IndexedMerkleTree::update_element_internal`: unimplemented in the
source (`return 0;` with no state writes). -/
def update_element_internal (t : Tree) (_index : Nat) (_value : Nat) : Nat × Tree :=
  (0, t)

/-- Outcome of the `while (true)` scan inside `update_element`. -/
inductive ScanResult where
  | dup
  | insertAt (idx : Nat)
deriving DecidableEq

/-- The `while (true)` loop of `update_element`, with explicit fuel:
at node `idx`, return `dup` when `(uint64_t)nextValue == (uint64_t)val`,
stop (`insertAt idx`) when `(uint64_t)nextValue > (uint64_t)val` or
`nextValue == 0`, otherwise follow `nextIndex`. -/
def scanLoop (leaves : List leaf) (val : Nat) : Nat → Nat → Option ScanResult
  | 0, _ => none
  | fuel + 1, idx =>
    let lf := leaves.getD idx zeroLeaf
    if u64 lf.nextValue = u64 val then some ScanResult.dup
    else if u64 val < u64 lf.nextValue ∨ lf.nextValue = 0 then
      some (ScanResult.insertAt idx)
    else scanLoop leaves val fuel lf.nextIndex

/-- `IndexedMerkleTree::update_element(fr const& val)`.  Returns the `fr`
return value of the C++ function paired with the new object state; `none`
models divergence of the unbounded scan (never reached from the public
API, as proved below). -/
def update_element (t : Tree) (val : Nat) : Option (Nat × Tree) :=
  let cur_idx := t.leaves_.length
  if t.total_size_ ≤ cur_idx then some (0, t)
  else
    match scanLoop t.leaves_ val t.leaves_.length 0 with
    | none => none
    | some ScanResult.dup => some (0, t)
    | some (ScanResult.insertAt idx) =>
      let pred := t.leaves_.getD idx zeroLeaf
      let next_idx := pred.nextIndex
      let next_value := pred.nextValue
      let leaves1 := t.leaves_.set idx
        { pred with nextValue := val, nextIndex := cur_idx }
      let leaves2 := leaves1 ++ [⟨val, next_idx, next_value⟩]
      let hashes1 := upd t.hashes_ cur_idx (hashLeaf (leaves2.getD cur_idx zeroLeaf))
      let hashes2 := upd hashes1 idx (hashLeaf (leaves2.getD idx zeroLeaf))
      let hstats1 := upd (upd t.hstats_ idx node_status.DIRTY) cur_idx node_status.DIRTY
      let t1 := { t with leaves_ := leaves2, hashes_ := hashes2, hstats_ := hstats1 }
      let t2 := calculate_root compress (build_hashes_from_leaves compress t1)
      some (0, t2)

/-- Folding `update_element` over a list of values (repeated insertion
through the public API). -/
def insertAll (t : Tree) : List Nat → Option Tree
  | [] => some t
  | v :: vs =>
    match update_element hashLeaf compress t v with
    | none => none
    | some (_, t1) => insertAll t1 vs

end Ops

/-- The value sequence yielded by following `nextIndex` from a given leaf
slot, reading each visited leaf's `nextValue` until the tail
(`nextValue = 0`) is reached (this is the spec's notion of the linked list
threaded through the leaves, read from index 0). -/
def chainVals (leaves : List leaf) : Nat → Nat → List Nat
  | 0, _ => []
  | fuel + 1, i =>
    let lf := leaves.getD i zeroLeaf
    if lf.nextValue = 0 then []
    else lf.nextValue :: chainVals leaves fuel lf.nextIndex

/-- Values of the leaves at the given flat indices. -/
def valsOf (leaves : List leaf) (is : List Nat) : List Nat :=
  is.map fun i => (leaves.getD i zeroLeaf).value

/-- `IsChain leaves i is`: starting at slot `i`, the list `is` enumerates
the slots visited by repeatedly following `nextIndex`, each link agreeing
with the successor's `value` through `nextValue`, until the tail
(`nextValue = 0`) is reached. -/
def IsChain (leaves : List leaf) : Nat → List Nat → Prop
  | _, [] => False
  | i, [j] => i = j ∧ i < leaves.length ∧ (leaves.getD i zeroLeaf).nextValue = 0
  | i, j :: k :: rest =>
    i = j ∧ i < leaves.length ∧ (leaves.getD i zeroLeaf).nextValue ≠ 0 ∧
    (leaves.getD i zeroLeaf).nextIndex = k ∧
    (leaves.getD i zeroLeaf).nextValue = (leaves.getD k zeroLeaf).value ∧
    IsChain leaves k (k :: rest)

/-- The sorted-linked-list invariant of the leaf table: some duplicate-free
chain starts at slot 0, its values are strictly ascending and below `2^64`,
the sentinel's value is 0, and the values after the sentinel are a
permutation of the multiset of inserted values. -/
def ListInv (leaves : List leaf) (inserted : List Nat) : Prop :=
  ∃ is, IsChain leaves 0 is ∧ is.Nodup ∧
    (valsOf leaves is).Sorted (· < ·) ∧
    (leaves.getD 0 zeroLeaf).value = 0 ∧
    (∀ v ∈ valsOf leaves is, v < 2 ^ 64) ∧
    ((valsOf leaves is).tail).Perm inserted

/-- The leaf-table effect of the insert branch of `update_element`:
predecessor `q` is rewritten to point at the fresh slot `cur` with
`nextValue v`, and a new leaf carrying `q`'s former pair is appended. -/
def spliceLeaves (leaves : List leaf) (q v cur : Nat) : List leaf :=
  leaves.set q ⟨(leaves.getD q zeroLeaf).value, cur, v⟩ ++
    [⟨v, (leaves.getD q zeroLeaf).nextIndex, (leaves.getD q zeroLeaf).nextValue⟩]

/-- Full list invariant of a tree state: the sorted duplicate-free chain
through the leaves, plus the book-keeping that every occupied slot beyond
the sentinel holds exactly one inserted value. -/
def TreeListInv (t : Tree) (inserted : List Nat) : Prop :=
  ListInv t.leaves_ inserted ∧ t.leaves_.length = inserted.length + 1

/-- Agreement of two leaf tables on everything the `update_element` scan
can observe: equal lengths, equal `nextIndex` fields, `nextValue` fields
equal in their low 64 bits and agreeing on being exactly zero. -/
def scanAgree (l1 l2 : List leaf) : Prop :=
  l1.length = l2.length ∧
  ∀ i < l1.length,
    (l1.getD i zeroLeaf).nextIndex = (l2.getD i zeroLeaf).nextIndex ∧
    u64 (l1.getD i zeroLeaf).nextValue = u64 (l2.getD i zeroLeaf).nextValue ∧
    ((l1.getD i zeroLeaf).nextValue = 0 ↔ (l2.getD i zeroLeaf).nextValue = 0)

/-- The constructor's `1 << (depth_ - (i - 1))` shift, modelled at the
type it has in the source: the literal `1` is a 32-bit signed `int`, so the
shift has a defined, positive value `2^n` exactly when the shift count `n`
stays below the sign bit (`n ≤ 30`); at `n = 31` the result overflows `int`
and at `n ≥ 32` the shift count reaches the type width, so the expression
has no defined value (modelled as `none`). -/
def shl1_int (n : Nat) : Option Nat :=
  if n < 31 then some (2 ^ n) else none

/-- The level-offset table loop of the constructor with the faithful
fallible 32-bit shift: `none` as soon as any iteration's shift count
reaches 31 (which happens on the first iteration once `depth ≥ 31`). -/
def levelStrIdxsC (depth : Nat) : Option (List Nat) :=
  (List.range' 1 (depth - 1)).foldl
    (fun ols i =>
      match ols, shl1_int (depth - (i - 1)) with
      | some ls, some v => some (ls ++ [ls.getD (i - 1) 0 + v])
      | _, _ => none)
    (some [0])

/-- Start offset of tree level `l` in the flattened hash array (the closed
form of the `level_str_idxs_` table): level 0 (leaves) starts at 0, level 1
at `2^d`, ..., level `l` at `2^(d+1) - 2^(d+1-l)`. -/
def levelStart (d l : Nat) : Nat := 2 ^ (d + 1) - 2 ^ (d + 1 - l)

/-- `AncD s0 d l k`: the level-`l` node with in-level offset `k` has some
`DIRTY` leaf (under status map `s0`) in its subtree. -/
def AncD (s0 : Nat → node_status) (d l k : Nat) : Prop :=
  ∃ jl, jl < 2 ^ d ∧ s0 jl = node_status.DIRTY ∧ jl / 2 ^ l = k

/-- The sibling pair that `get_hash_path` emits for a flat position `x`:
`(hashes[x], hashes[x+1])` when `x` is even, `(hashes[x-1], hashes[x])`
when odd. -/
def pathPair (h : Nat → Nat) (x : Nat) : Nat × Nat :=
  if x % 2 = 1 then (h (x - 1), h x) else (h x, h (x + 1))

/-- Well-formedness of a tree state for the hash layer: correct shape
parameters, internal-node consistency, a valid cached root, the dirty flags
confined to the two nodes below the apex, a duplicate-free chain from the
sentinel, and an occupancy bound. -/
structure WF (compress : Nat → Nat → Nat) (t : Tree) : Prop where
  depth_pos : 1 ≤ t.depth_
  total_eq : t.total_size_ = 2 ^ t.depth_
  lsi_eq : t.level_str_idxs_ = levelStrIdxs t.depth_
  consistent : ∀ l k, 1 ≤ l → l < t.depth_ → k < 2 ^ (t.depth_ - l) →
    t.hashes_ (levelStart t.depth_ l + k) =
      compress (t.hashes_ (levelStart t.depth_ (l - 1) + 2 * k))
        (t.hashes_ (levelStart t.depth_ (l - 1) + 2 * k + 1))
  root_eq : t.root_ = compress (t.hashes_ (2 ^ (t.depth_ + 1) - 2 - 2))
    (t.hashes_ (2 ^ (t.depth_ + 1) - 2 - 1))
  clean_low : ∀ j, j < 2 ^ (t.depth_ + 1) - 2 - 2 → t.hstats_ j = node_status.CLEAN
  dirty_top : ∀ j, 2 ^ (t.depth_ + 1) - 2 - 2 ≤ j → j < 2 ^ (t.depth_ + 1) - 2 →
    t.hstats_ j = node_status.DIRTY
  chain : ∃ is, IsChain t.leaves_ 0 is ∧ is.Nodup
  occ_le : t.leaves_.length ≤ t.total_size_

/-- Invariant carried through the `build_hashes_from_leaves` pass, with
`m` the next flat index to be processed: positions below the leaf bound or
not yet processed still hold their initial hash; processed internal nodes
are recompressed exactly when a dirty leaf lies below them; a node's flag
is `DIRTY` exactly when its dirtiness source has been established and its
parent has not yet cleaned it. -/
def BuildInv (compress : Nat → Nat → Nat) (d : Nat) (h0 : Nat → Nat)
    (s0 : Nat → node_status) (m : Nat)
    (st : (Nat → Nat) × (Nat → node_status)) : Prop :=
  (∀ j, j < 2 ^ d → st.1 j = h0 j) ∧
  (∀ j, m ≤ j → st.1 j = h0 j) ∧
  (∀ l k, 1 ≤ l → l < d → k < 2 ^ (d - l) → levelStart d l + k < m →
    (AncD s0 d l k →
      st.1 (levelStart d l + k) =
        compress (st.1 (levelStart d (l - 1) + 2 * k))
          (st.1 (levelStart d (l - 1) + 2 * k + 1))) ∧
    (¬ AncD s0 d l k → st.1 (levelStart d l + k) = h0 (levelStart d l + k))) ∧
  (∀ j, j < 2 ^ d →
    (st.2 j = node_status.DIRTY ↔
      s0 j = node_status.DIRTY ∧ m ≤ 2 ^ d + j / 2)) ∧
  (∀ l k, 1 ≤ l → l < d → k < 2 ^ (d - l) →
    (st.2 (levelStart d l + k) = node_status.DIRTY ↔
      ((AncD s0 d l k ∧ levelStart d l + k < m) ∨
        s0 (levelStart d l + k) = node_status.DIRTY) ∧
      m ≤ levelStart d (l + 1) + k / 2)) ∧
  (∀ j, 2 ^ (d + 1) - 2 ≤ j → st.2 j = s0 j)

/-- A concrete injective stand-in for the opaque leaf hash, used to
instantiate witnesses and counterexamples. -/
def cHash (lf : leaf) : Nat :=
  Nat.pair lf.value (Nat.pair lf.nextIndex lf.nextValue) + 1

/-- A concrete injective stand-in for the opaque compression function,
used to instantiate witnesses and counterexamples (always positive). -/
def cCompress (a b : Nat) : Nat := Nat.pair a b + 1

/-- The depth-2 tree obtained by inserting the single value 5 into a fresh
tree (concrete hash primitives). -/
def tree5 : Tree :=
  (insertAll cHash cCompress (construct cHash cCompress 2) [5]).getD
    (construct cHash cCompress 2)

/-- A raw depth-2 state whose sentinel has `nextValue = 2^64` (a nonzero
field element whose low 64 bits are zero). -/
def treeA64 : Tree :=
  { depth_ := 2, total_size_ := 4, root_ := 0
    leaves_ := [⟨0, 1, 2 ^ 64⟩, ⟨2 ^ 64, 0, 0⟩]
    hashes_ := fun _ => 0
    level_str_idxs_ := [0, 4]
    hstats_ := fun _ => node_status.DIRTY }

/-- The same state as `treeA64` except every `2^64` is replaced by `0`:
all `value`/`nextValue` fields agree with `treeA64` modulo `2^64`, and all
`nextIndex` fields agree exactly. -/
def treeB64 : Tree :=
  { depth_ := 2, total_size_ := 4, root_ := 0
    leaves_ := [⟨0, 1, 0⟩, ⟨0, 0, 0⟩]
    hashes_ := fun _ => 0
    level_str_idxs_ := [0, 4]
    hstats_ := fun _ => node_status.DIRTY }

/-! Basic lemmas about list reads. -/

theorem getD_append_lt {α : Type} (l m : List α) (d : α) (i : Nat)
    (h : i < l.length) : (l ++ m).getD i d = l.getD i d := by
  simp [List.getD_eq_getElem?_getD, List.getElem?_append, h]

theorem getD_append_len {α : Type} (l : List α) (x : α) (d : α) :
    (l ++ [x]).getD l.length d = x := by
  simp [List.getD_eq_getElem?_getD]

theorem getD_set_self {α : Type} (l : List α) (p : Nat) (x d : α)
    (h : p < l.length) : (l.set p x).getD p d = x := by
  simp [List.getD_eq_getElem?_getD, List.getElem?_set_self, h]

theorem getD_set_ne {α : Type} (l : List α) (p q : Nat) (x d : α)
    (h : q ≠ p) : (l.set p x).getD q d = l.getD q d := by
  simp [List.getD_eq_getElem?_getD, List.getElem?_set_ne (fun hh => h hh.symm)]

theorem getD_len_le {α : Type} (l : List α) (d : α) (i : Nat)
    (h : l.length ≤ i) : l.getD i d = d := by
  simp [List.getD_eq_getElem?_getD, List.getElem?_eq_none h]

/-! Basic lemmas about chains. -/

theorem IsChain.head_eq {leaves : List leaf} {i j : Nat} {rest : List Nat}
    (h : IsChain leaves i (j :: rest)) : i = j := by
  cases rest <;> exact h.1

theorem IsChain.mem_lt {leaves : List leaf} :
    ∀ {is : List Nat} {i : Nat}, IsChain leaves i is →
      ∀ j ∈ is, j < leaves.length := by
  intro is
  induction is with
  | nil => intro i h; exact absurd h (by simp [IsChain])
  | cons j rest ih =>
    intro i h x hx
    cases rest with
    | nil =>
      obtain ⟨h1, h2, _⟩ := h
      rcases List.mem_singleton.mp hx with rfl
      exact h1 ▸ h2
    | cons k rest2 =>
      obtain ⟨h1, h2, _, _, _, h6⟩ := h
      rcases List.mem_cons.mp hx with rfl | hx2
      · exact h1 ▸ h2
      · exact ih h6 x hx2

theorem u64_small {x : Nat} (h : x < 2 ^ 64) : u64 x = x := Nat.mod_eq_of_lt h

theorem valsOf_nil (leaves : List leaf) : valsOf leaves [] = [] := rfl

theorem valsOf_cons (leaves : List leaf) (j : Nat) (rest : List Nat) :
    valsOf leaves (j :: rest) =
      (leaves.getD j zeroLeaf).value :: valsOf leaves rest := rfl

theorem valsOf_append (leaves : List leaf) (as bs : List Nat) :
    valsOf leaves (as ++ bs) = valsOf leaves as ++ valsOf leaves bs := by
  simp [valsOf]

/-- If the candidate occurs among the values after the start of a sorted
chain, the scan reports a duplicate. -/
theorem scan_dup {leaves : List leaf} {v : Nat} (hv : v < 2 ^ 64) :
    ∀ {is : List Nat} (i fuel : Nat), IsChain leaves i is →
      (valsOf leaves is).Sorted (· < ·) →
      (∀ w ∈ valsOf leaves is, w < 2 ^ 64) →
      v ∈ (valsOf leaves is).tail →
      is.length ≤ fuel →
      scanLoop leaves v fuel i = some ScanResult.dup := by
  intro is
  induction is with
  | nil => intro i fuel h; exact absurd h (by simp [IsChain])
  | cons j rest ih =>
    intro i fuel hch hsort hbnd hmem hfuel
    cases rest with
    | nil =>
      rw [valsOf_cons, valsOf_nil, List.tail_cons] at hmem
      exact absurd hmem (List.not_mem_nil v)
    | cons k rest2 =>
      obtain ⟨rfl, hlen, hnz, hidx, hlink, hch2⟩ := hch
      obtain ⟨fuel, rfl⟩ : ∃ f, fuel = f + 1 := by
        cases fuel with
        | zero => simp at hfuel
        | succ f => exact ⟨f, rfl⟩
      have hkb : (leaves.getD k zeroLeaf).value < 2 ^ 64 := by
        apply hbnd
        rw [valsOf_cons, valsOf_cons]
        exact List.mem_cons_of_mem _ (List.mem_cons_self _ _)
      rw [valsOf_cons, List.tail_cons, valsOf_cons] at hmem
      rcases List.mem_cons.mp hmem with heq | hmem2
      · -- v is exactly the next value: the first test fires
        have hcond : u64 (leaves.getD i zeroLeaf).nextValue = u64 v := by
          rw [hlink, u64_small hkb, u64_small hv, heq]
        simp only [scanLoop]
        rw [if_pos hcond]
      · -- v occurs later: the scan moves to the next node
        rw [valsOf_cons, valsOf_cons] at hsort
        have hklt : (leaves.getD k zeroLeaf).value < v :=
          (List.sorted_cons.mp (List.sorted_cons.mp hsort).2).1 v hmem2
        have hO : ¬ u64 (leaves.getD i zeroLeaf).nextValue = u64 v := by
          rw [hlink, u64_small hkb, u64_small hv]
          omega
        have hI : ¬ (u64 v < u64 (leaves.getD i zeroLeaf).nextValue ∨
            (leaves.getD i zeroLeaf).nextValue = 0) := by
          push_neg
          refine ⟨?_, hnz⟩
          rw [hlink, u64_small hkb, u64_small hv]
          omega
        simp only [scanLoop]
        rw [if_neg hO, if_neg hI, hidx]
        refine ih k fuel hch2 ?_ ?_ ?_ ?_
        · rw [valsOf_cons]
          exact (List.sorted_cons.mp hsort).2
        · intro w hw
          apply hbnd
          rw [valsOf_cons]
          exact List.mem_cons_of_mem _ hw
        · rw [valsOf_cons, List.tail_cons]
          exact hmem2
        · simp only [List.length_cons] at hfuel ⊢
          omega

/-- If the candidate is absent from the values after the start of a sorted
chain and exceeds the start's value, the scan stops at the last chain node
whose value is below the candidate, splitting the chain around it. -/
theorem scan_insert {leaves : List leaf} {v : Nat} (hv : v < 2 ^ 64) :
    ∀ {is : List Nat} (i fuel : Nat), IsChain leaves i is →
      (valsOf leaves is).Sorted (· < ·) →
      (∀ w ∈ valsOf leaves is, w < 2 ^ 64) →
      v ∉ (valsOf leaves is).tail →
      (leaves.getD i zeroLeaf).value < v →
      is.length ≤ fuel →
      ∃ q as bs, is = as ++ q :: bs ∧
        scanLoop leaves v fuel i = some (ScanResult.insertAt q) ∧
        (∀ w ∈ valsOf leaves (as ++ [q]), w < v) ∧
        (∀ w ∈ valsOf leaves bs, v < w) := by
  intro is
  induction is with
  | nil => intro i fuel h; exact absurd h (by simp [IsChain])
  | cons j rest ih =>
    intro i fuel hch hsort hbnd hmem hlt hfuel
    obtain ⟨fuel, rfl⟩ : ∃ f, fuel = f + 1 := by
      cases fuel with
      | zero => simp at hfuel
      | succ f => exact ⟨f, rfl⟩
    cases rest with
    | nil =>
      obtain ⟨rfl, hlen, hz⟩ := hch
      have hO : ¬ u64 (leaves.getD i zeroLeaf).nextValue = u64 v := by
        rw [hz, u64_small hv]
        show ¬ (0 % 2 ^ 64 = v)
        omega
      refine ⟨i, [], [], by simp, ?_, ?_, by intro w hw; exact absurd hw (by simp [valsOf])⟩
      · simp only [scanLoop]
        rw [if_neg hO, if_pos (Or.inr hz)]
      · intro w hw
        rw [List.nil_append, valsOf_cons, valsOf_nil] at hw
        rcases List.mem_singleton.mp hw with rfl
        exact hlt
    | cons k rest2 =>
      obtain ⟨rfl, hlen, hnz, hidx, hlink, hch2⟩ := hch
      have hkb : (leaves.getD k zeroLeaf).value < 2 ^ 64 := by
        apply hbnd
        rw [valsOf_cons, valsOf_cons]
        exact List.mem_cons_of_mem _ (List.mem_cons_self _ _)
      have hmem2 : v ∉ valsOf leaves (k :: rest2) := by
        rw [valsOf_cons, List.tail_cons] at hmem
        exact hmem
      have hne : (leaves.getD k zeroLeaf).value ≠ v := by
        intro he
        apply hmem2
        rw [valsOf_cons, he]
        exact List.mem_cons_self _ _
      rcases Nat.lt_or_ge v (leaves.getD k zeroLeaf).value with hvk | hvk
      · -- the next value exceeds v: insert right here
        have hO : ¬ u64 (leaves.getD i zeroLeaf).nextValue = u64 v := by
          rw [hlink, u64_small hkb, u64_small hv]
          omega
        refine ⟨i, [], k :: rest2, by simp, ?_, ?_, ?_⟩
        · simp only [scanLoop]
          rw [if_neg hO, if_pos]
          left
          rw [hlink, u64_small hkb, u64_small hv]
          exact hvk
        · intro w hw
          rw [List.nil_append, valsOf_cons, valsOf_nil] at hw
          rcases List.mem_singleton.mp hw with rfl
          exact hlt
        · intro w hw
          rw [valsOf_cons] at hw
          rw [valsOf_cons, valsOf_cons] at hsort
          rcases List.mem_cons.mp hw with rfl | hw2
          · exact hvk
          · exact lt_trans hvk
              ((List.sorted_cons.mp (List.sorted_cons.mp hsort).2).1 w hw2)
      · -- the next value is below v: move on
        have hvk2 : (leaves.getD k zeroLeaf).value < v :=
          lt_of_le_of_ne hvk (fun h => hne h)
        rw [valsOf_cons, valsOf_cons] at hsort
        obtain ⟨q, as, bs, hsplit, hscan, hlo, hhi⟩ :=
          ih k fuel hch2
            (by rw [valsOf_cons]; exact (List.sorted_cons.mp hsort).2)
            (by intro w hw; apply hbnd; rw [valsOf_cons];
                exact List.mem_cons_of_mem _ hw)
            (by rw [valsOf_cons, List.tail_cons]
                intro hc
                apply hmem2
                rw [valsOf_cons]
                exact List.mem_cons_of_mem _ hc)
            hvk2
            (by simp only [List.length_cons] at hfuel ⊢; omega)
        have hO : ¬ u64 (leaves.getD i zeroLeaf).nextValue = u64 v := by
          rw [hlink, u64_small hkb, u64_small hv]
          omega
        have hI : ¬ (u64 v < u64 (leaves.getD i zeroLeaf).nextValue ∨
            (leaves.getD i zeroLeaf).nextValue = 0) := by
          push_neg
          refine ⟨?_, hnz⟩
          rw [hlink, u64_small hkb, u64_small hv]
          omega
        refine ⟨q, i :: as, bs, by rw [List.cons_append, hsplit], ?_, ?_, hhi⟩
        · simp only [scanLoop]
          rw [if_neg hO, if_neg hI, hidx]
          exact hscan
        · intro w hw
          rw [List.cons_append, valsOf_cons] at hw
          rcases List.mem_cons.mp hw with rfl | hw2
          · exact hlt
          · exact hlo w hw2

/-! Effect of the splice on individual slots. -/

theorem spliceLeaves_length (leaves : List leaf) (q v cur : Nat) :
    (spliceLeaves leaves q v cur).length = leaves.length + 1 := by
  simp [spliceLeaves]

theorem spliceLeaves_getD_ne (leaves : List leaf) (q v cur x : Nat)
    (hx : x < leaves.length) (hne : x ≠ q) :
    (spliceLeaves leaves q v cur).getD x zeroLeaf = leaves.getD x zeroLeaf := by
  unfold spliceLeaves
  rw [getD_append_lt _ _ _ _ (by simpa using hx), getD_set_ne _ _ _ _ _ hne]

theorem spliceLeaves_getD_q (leaves : List leaf) (q v cur : Nat)
    (hq : q < leaves.length) :
    (spliceLeaves leaves q v cur).getD q zeroLeaf =
      ⟨(leaves.getD q zeroLeaf).value, cur, v⟩ := by
  unfold spliceLeaves
  rw [getD_append_lt _ _ _ _ (by simpa using hq), getD_set_self _ _ _ _ hq]

theorem spliceLeaves_getD_cur (leaves : List leaf) (q v : Nat) :
    (spliceLeaves leaves q v leaves.length).getD leaves.length zeroLeaf =
      ⟨v, (leaves.getD q zeroLeaf).nextIndex, (leaves.getD q zeroLeaf).nextValue⟩ := by
  unfold spliceLeaves
  have h := getD_append_len
    (leaves.set q ⟨(leaves.getD q zeroLeaf).value, leaves.length, v⟩)
    (⟨v, (leaves.getD q zeroLeaf).nextIndex, (leaves.getD q zeroLeaf).nextValue⟩ : leaf)
    zeroLeaf
  rw [List.length_set] at h
  exact h

theorem spliceLeaves_value (leaves : List leaf) (q v cur x : Nat)
    (hx : x < leaves.length) :
    ((spliceLeaves leaves q v cur).getD x zeroLeaf).value =
      (leaves.getD x zeroLeaf).value := by
  rcases eq_or_ne x q with rfl | hne
  · rw [spliceLeaves_getD_q _ _ _ _ hx]
  · rw [spliceLeaves_getD_ne _ _ _ _ _ hx hne]

theorem valsOf_spliceLeaves (leaves : List leaf) (q v cur : Nat) (is : List Nat)
    (his : ∀ x ∈ is, x < leaves.length) :
    valsOf (spliceLeaves leaves q v cur) is = valsOf leaves is :=
  List.map_congr_left fun x hx => spliceLeaves_value _ _ _ _ _ (his x hx)

/-- Chain nodes other than the predecessor are untouched by the splice. -/
theorem IsChain.frame {leaves : List leaf} {q v cur : Nat} :
    ∀ {is : List Nat} {i : Nat}, IsChain leaves i is → q ∉ is →
      IsChain (spliceLeaves leaves q v cur) i is := by
  intro is
  induction is with
  | nil => intro i h; exact absurd h (by simp [IsChain])
  | cons j rest ih =>
    intro i hch hq
    cases rest with
    | nil =>
      obtain ⟨hij, hlen, hz⟩ := hch
      have hne : i ≠ q := fun h => hq (by rw [hij] at h; exact h ▸ List.mem_singleton_self j)
      exact ⟨hij, by rw [spliceLeaves_length]; omega,
        by rw [spliceLeaves_getD_ne _ _ _ _ _ hlen hne]; exact hz⟩
    | cons k rest2 =>
      obtain ⟨hij, hlen, hnz, hidx, hlink, hch2⟩ := hch
      have hne : i ≠ q := fun h => hq (by rw [hij] at h; exact h ▸ List.mem_cons_self j _)
      have hkq : k ≠ q := fun h =>
        hq (by rw [← h]; exact List.mem_cons_of_mem _ (List.mem_cons_self k rest2))
      have hklen : k < leaves.length := hch2.mem_lt k (List.mem_cons_self _ _)
      refine ⟨hij, by rw [spliceLeaves_length]; omega, ?_, ?_, ?_, ?_⟩
      · rw [spliceLeaves_getD_ne _ _ _ _ _ hlen hne]; exact hnz
      · rw [spliceLeaves_getD_ne _ _ _ _ _ hlen hne]; exact hidx
      · rw [spliceLeaves_getD_ne _ _ _ _ _ hlen hne,
          spliceLeaves_getD_ne _ _ _ _ _ hklen hkq]; exact hlink
      · exact ih hch2 (fun h => hq (List.mem_cons_of_mem _ h))

/-- Splicing the new value after the predecessor `q` turns the old chain
`as ++ q :: bs` into the chain `as ++ q :: cur :: bs` of the new table. -/
theorem chain_splice {leaves : List leaf} {v cur : Nat}
    (hcur : cur = leaves.length) (hv0 : 0 < v) :
    ∀ (as : List Nat) (q : Nat) (bs : List Nat) (i : Nat),
      IsChain leaves i (as ++ q :: bs) → (as ++ q :: bs).Nodup →
      IsChain (spliceLeaves leaves q v cur) i (as ++ q :: cur :: bs) := by
  intro as
  induction as with
  | nil =>
    intro q bs i hch hnd
    rw [List.nil_append] at hch hnd ⊢
    have hq : i < leaves.length := by
      have := hch.head_eq
      exact this ▸ hch.mem_lt q (this ▸ List.mem_cons_self _ _)
    have hiq : i = q := hch.head_eq
    have hqlen : q < leaves.length := hiq ▸ hq
    have hgq := spliceLeaves_getD_q leaves q v cur hqlen
    have hgc : (spliceLeaves leaves q v cur).getD cur zeroLeaf =
        ⟨v, (leaves.getD q zeroLeaf).nextIndex, (leaves.getD q zeroLeaf).nextValue⟩ := by
      rw [hcur]; exact spliceLeaves_getD_cur leaves q v
    refine ⟨hiq, by rw [spliceLeaves_length]; omega, ?_, ?_, ?_, ?_⟩
    · rw [hiq, hgq]
      show v ≠ 0
      omega
    · rw [hiq, hgq]
    · rw [hiq, hgq, hgc]
    · -- the chain restarting at the fresh node
      cases bs with
      | nil =>
        obtain ⟨_, _, hz⟩ := hch
        refine ⟨rfl, by rw [spliceLeaves_length]; omega, ?_⟩
        rw [hgc]
        show (leaves.getD q zeroLeaf).nextValue = 0
        rw [← hiq]
        exact hz
      | cons b bs2 =>
        obtain ⟨_, _, hnz, hidx, hlink, hch2⟩ := hch
        rw [hiq] at hnz hidx hlink
        have hbq : b ≠ q := fun h =>
          (List.nodup_cons.mp hnd).1 (h ▸ List.mem_cons_self b bs2)
        have hblen : b < leaves.length := hch2.mem_lt b (List.mem_cons_self _ _)
        refine ⟨rfl, by rw [spliceLeaves_length]; omega, ?_, ?_, ?_, ?_⟩
        · rw [hgc]; exact hnz
        · rw [hgc]; exact hidx
        · rw [hgc, spliceLeaves_getD_ne _ _ _ _ _ hblen hbq]; exact hlink
        · exact IsChain.frame hch2 (List.nodup_cons.mp hnd).1
  | cons a as2 ih =>
    intro q bs i hch hnd
    rw [List.cons_append] at hch hnd ⊢
    have haq : a ∉ as2 ++ q :: bs := (List.nodup_cons.mp hnd).1
    have hnd2 : (as2 ++ q :: bs).Nodup := (List.nodup_cons.mp hnd).2
    have haq2 : a ≠ q := fun h =>
      haq (by rw [h]; exact List.mem_append_right _ (List.mem_cons_self _ _))
    cases as2 with
    | nil =>
      rw [List.nil_append] at hch hnd2 ⊢
      obtain ⟨hia, hlen, hnz, hidx, hlink, hch2⟩ := hch
      have hiq2 : i ≠ q := by rw [hia]; exact haq2
      have hqlen : q < leaves.length := hch2.mem_lt q (List.mem_cons_self _ _)
      refine ⟨hia, by rw [spliceLeaves_length]; omega, ?_, ?_, ?_, ?_⟩
      · rw [spliceLeaves_getD_ne _ _ _ _ _ hlen hiq2]; exact hnz
      · rw [spliceLeaves_getD_ne _ _ _ _ _ hlen hiq2]; exact hidx
      · rw [spliceLeaves_getD_ne _ _ _ _ _ hlen hiq2,
          spliceLeaves_value _ _ _ _ _ hqlen]; exact hlink
      · have h3 := ih q bs q hch2 hnd2
        rw [List.nil_append] at h3
        exact h3
    | cons a2 as3 =>
      rw [List.cons_append] at hch hnd2 ⊢
      obtain ⟨hia, hlen, hnz, hidx, hlink, hch2⟩ := hch
      have hiq2 : i ≠ q := by rw [hia]; exact haq2
      have ha2q : a2 ≠ q := fun h =>
        (List.nodup_cons.mp hnd2).1
          (by rw [← h]; exact List.mem_append_right _ (List.mem_cons_self _ _))
      have ha2len : a2 < leaves.length :=
        hch2.mem_lt a2 (List.mem_cons_self _ _)
      refine ⟨hia, by rw [spliceLeaves_length]; omega, ?_, ?_, ?_, ?_⟩
      · rw [spliceLeaves_getD_ne _ _ _ _ _ hlen hiq2]; exact hnz
      · rw [spliceLeaves_getD_ne _ _ _ _ _ hlen hiq2]; exact hidx
      · rw [spliceLeaves_getD_ne _ _ _ _ _ hlen hiq2,
          spliceLeaves_value _ _ _ _ _ ha2len]; exact hlink
      · have h3 := ih q bs a2 (by rw [List.cons_append]; exact hch2)
          (by rw [List.cons_append]; exact hnd2)
        rw [List.cons_append] at h3
        exact h3

/-! Field-preservation facts (the hash recomputation phases never touch the
leaf table or the shape parameters). -/

theorem build_fields (compress : Nat → Nat → Nat) (t : Tree) :
    (build_hashes_from_leaves compress t).leaves_ = t.leaves_ ∧
    (build_hashes_from_leaves compress t).total_size_ = t.total_size_ ∧
    (build_hashes_from_leaves compress t).depth_ = t.depth_ ∧
    (build_hashes_from_leaves compress t).level_str_idxs_ = t.level_str_idxs_ :=
  ⟨rfl, rfl, rfl, rfl⟩

theorem calculate_root_fields (compress : Nat → Nat → Nat) (t : Tree) :
    (calculate_root compress t).leaves_ = t.leaves_ ∧
    (calculate_root compress t).total_size_ = t.total_size_ ∧
    (calculate_root compress t).depth_ = t.depth_ ∧
    (calculate_root compress t).level_str_idxs_ = t.level_str_idxs_ ∧
    (calculate_root compress t).hashes_ = t.hashes_ :=
  ⟨rfl, rfl, rfl, rfl, rfl⟩

theorem construct_leaves (hashLeaf : leaf → Nat) (compress : Nat → Nat → Nat)
    (depth : Nat) : (construct hashLeaf compress depth).leaves_ = [zeroLeaf] :=
  rfl

theorem construct_total_size (hashLeaf : leaf → Nat) (compress : Nat → Nat → Nat)
    (depth : Nat) : (construct hashLeaf compress depth).total_size_ = 2 ^ depth :=
  rfl

/-! Branch characterizations of `update_element`. -/

theorem update_element_full (hashLeaf : leaf → Nat) (compress : Nat → Nat → Nat)
    (t : Tree) (v : Nat) (hfull : t.total_size_ ≤ t.leaves_.length) :
    update_element hashLeaf compress t v = some (0, t) := by
  simp only [update_element]
  rw [if_pos hfull]

theorem update_element_eq_dup (hashLeaf : leaf → Nat) (compress : Nat → Nat → Nat)
    (t : Tree) (v : Nat) (hroom : t.leaves_.length < t.total_size_)
    (hscan : scanLoop t.leaves_ v t.leaves_.length 0 = some ScanResult.dup) :
    update_element hashLeaf compress t v = some (0, t) := by
  simp only [update_element]
  rw [if_neg (not_le.mpr hroom), hscan]

theorem update_element_eq_insert (hashLeaf : leaf → Nat) (compress : Nat → Nat → Nat)
    (t : Tree) (v q : Nat) (hroom : t.leaves_.length < t.total_size_)
    (hscan : scanLoop t.leaves_ v t.leaves_.length 0 =
      some (ScanResult.insertAt q)) :
    update_element hashLeaf compress t v =
      some (0, calculate_root compress (build_hashes_from_leaves compress
        { t with
          leaves_ := spliceLeaves t.leaves_ q v t.leaves_.length
          hashes_ := upd
            (upd t.hashes_ t.leaves_.length
              (hashLeaf ((spliceLeaves t.leaves_ q v t.leaves_.length).getD
                t.leaves_.length zeroLeaf)))
            q
            (hashLeaf ((spliceLeaves t.leaves_ q v t.leaves_.length).getD q zeroLeaf))
          hstats_ := upd (upd t.hstats_ q node_status.DIRTY) t.leaves_.length
            node_status.DIRTY })) := by
  simp only [update_element, spliceLeaves]
  rw [if_neg (not_le.mpr hroom), hscan]

/-- A duplicate-free chain of valid slot indices is no longer than the leaf
table. -/
theorem chain_length_le {leaves : List leaf} {is : List Nat} {i : Nat}
    (hch : IsChain leaves i is) (hnd : is.Nodup) : is.length ≤ leaves.length := by
  have h1 : is.toFinset.card = is.length := List.toFinset_card_of_nodup hnd
  have h2 : is.toFinset ⊆ Finset.range leaves.length := by
    intro x hx
    rw [List.mem_toFinset] at hx
    exact Finset.mem_range.mpr (hch.mem_lt x hx)
  have h3 := Finset.card_le_card h2
  rw [h1, Finset.card_range] at h3
  exact h3

theorem tail_append_left {α : Type} (l m : List α) (h : l ≠ []) :
    (l ++ m).tail = l.tail ++ m := by
  cases l with
  | nil => exact absurd rfl h
  | cons x l2 => rfl

/-- Inserting a value that is already recorded is a no-op returning 0. -/
theorem update_element_dup (hashLeaf : leaf → Nat) (compress : Nat → Nat → Nat)
    (t : Tree) (inserted : List Nat) (v : Nat)
    (hInv : TreeListInv t inserted) (hv : v ∈ inserted) :
    update_element hashLeaf compress t v = some (0, t) := by
  obtain ⟨⟨is, hch, hnd, hsort, h0, hbnd, hperm⟩, hlen⟩ := hInv
  rcases le_or_lt t.total_size_ t.leaves_.length with hfull | hroom
  · exact update_element_full _ _ _ _ hfull
  · have hvtail : v ∈ (valsOf t.leaves_ is).tail := hperm.mem_iff.mpr hv
    have hv64 : v < 2 ^ 64 := hbnd v (List.mem_of_mem_tail hvtail)
    exact update_element_eq_dup _ _ _ _ hroom
      (scan_dup hv64 0 t.leaves_.length hch hsort hbnd hvtail
        (chain_length_le hch hnd))

/-- Inserting a fresh value below `2^64` into a non-full well-formed tree
succeeds, returns 0, and preserves the sorted-linked-list invariant with
the new value added to the recorded multiset. -/
theorem update_element_insert (hashLeaf : leaf → Nat) (compress : Nat → Nat → Nat)
    (t : Tree) (inserted : List Nat) (v : Nat)
    (hInv : TreeListInv t inserted) (hv0 : 0 < v) (hv64 : v < 2 ^ 64)
    (hnm : v ∉ inserted) (hroom : t.leaves_.length < t.total_size_) :
    ∃ t1, update_element hashLeaf compress t v = some (0, t1) ∧
      TreeListInv t1 (v :: inserted) ∧
      t1.total_size_ = t.total_size_ ∧ t1.depth_ = t.depth_ ∧
      t1.level_str_idxs_ = t.level_str_idxs_ ∧
      t1.leaves_.length = t.leaves_.length + 1 := by
  obtain ⟨⟨is, hch, hnd, hsort, h0, hbnd, hperm⟩, hlen⟩ := hInv
  have hfuel : is.length ≤ t.leaves_.length := chain_length_le hch hnd
  have hvtail : v ∉ (valsOf t.leaves_ is).tail := fun hc => hnm (hperm.mem_iff.mp hc)
  have h0mem : (0 : Nat) ∈ is := by
    cases is with
    | nil => exact absurd hch (by simp [IsChain])
    | cons j rest => exact hch.head_eq ▸ List.mem_cons_self j rest
  have h0len : 0 < t.leaves_.length := hch.mem_lt 0 h0mem
  have hstart : (t.leaves_.getD 0 zeroLeaf).value < v := by rw [h0]; exact hv0
  obtain ⟨q, as, bs, hsplit, hscan, hlo, hhi⟩ :=
    scan_insert hv64 0 t.leaves_.length hch hsort hbnd hvtail hstart hfuel
  subst hsplit
  have hqmem : q ∈ as ++ q :: bs := List.mem_append_right _ (List.mem_cons_self _ _)
  have hqlen : q < t.leaves_.length := hch.mem_lt q hqmem
  have hmemlt : ∀ x ∈ as ++ q :: bs, x < t.leaves_.length := hch.mem_lt
  have hcurnot : t.leaves_.length ∉ as ++ q :: bs :=
    fun hc => absurd (hch.mem_lt _ hc) (lt_irrefl _)
  -- names for the three value segments
  have hchain' : IsChain (spliceLeaves t.leaves_ q v t.leaves_.length) 0
      (as ++ q :: t.leaves_.length :: bs) := chain_splice rfl hv0 as q bs 0 hch hnd
  have hnd' : (as ++ q :: t.leaves_.length :: bs).Nodup := by
    have hpe : List.Perm ((as ++ [q]) ++ t.leaves_.length :: bs)
        (t.leaves_.length :: ((as ++ [q]) ++ bs)) := List.perm_middle
    have e1 : (as ++ [q]) ++ t.leaves_.length :: bs =
        as ++ q :: t.leaves_.length :: bs := by simp
    have e2 : (as ++ [q]) ++ bs = as ++ q :: bs := by simp
    rw [e1, e2] at hpe
    exact (List.Perm.nodup_iff hpe).mpr (List.nodup_cons.mpr ⟨hcurnot, hnd⟩)
  have hvq' := spliceLeaves_value t.leaves_ q v t.leaves_.length q hqlen
  have hvcur : ((spliceLeaves t.leaves_ q v t.leaves_.length).getD
      t.leaves_.length zeroLeaf).value = v := by
    rw [spliceLeaves_getD_cur]
  have hA' : valsOf (spliceLeaves t.leaves_ q v t.leaves_.length) as =
      valsOf t.leaves_ as :=
    valsOf_spliceLeaves _ _ _ _ _ (fun x hx => hmemlt x (List.mem_append_left _ hx))
  have hB' : valsOf (spliceLeaves t.leaves_ q v t.leaves_.length) bs =
      valsOf t.leaves_ bs :=
    valsOf_spliceLeaves _ _ _ _ _ (fun x hx => hmemlt x
      (List.mem_append_right _ (List.mem_cons_of_mem _ hx)))
  have hvals' : valsOf (spliceLeaves t.leaves_ q v t.leaves_.length)
      (as ++ q :: t.leaves_.length :: bs) =
      valsOf t.leaves_ as ++ (t.leaves_.getD q zeroLeaf).value :: v ::
        valsOf t.leaves_ bs := by
    rw [valsOf_append, valsOf_cons, valsOf_cons, hA', hB', hvq', hvcur]
  rw [valsOf_append, valsOf_cons] at hsort hbnd hperm
  rw [valsOf_append, valsOf_cons, valsOf_nil] at hlo
  -- sortedness of the new value list
  have hsorted' : (valsOf t.leaves_ as ++ (t.leaves_.getD q zeroLeaf).value :: v ::
      valsOf t.leaves_ bs).Sorted (· < ·) := by
    have e : valsOf t.leaves_ as ++ (t.leaves_.getD q zeroLeaf).value :: v ::
        valsOf t.leaves_ bs =
        (valsOf t.leaves_ as ++ [(t.leaves_.getD q zeroLeaf).value]) ++ v ::
          valsOf t.leaves_ bs := by simp
    have eold : valsOf t.leaves_ as ++ (t.leaves_.getD q zeroLeaf).value ::
        valsOf t.leaves_ bs =
        (valsOf t.leaves_ as ++ [(t.leaves_.getD q zeroLeaf).value]) ++
          valsOf t.leaves_ bs := by simp
    rw [eold] at hsort
    obtain ⟨hs1, hs2, hs3⟩ := List.pairwise_append.mp hsort
    rw [e]
    refine List.pairwise_append.mpr ⟨hs1, ?_, ?_⟩
    · exact List.sorted_cons.mpr ⟨hhi, hs2⟩
    · intro a ha b hb
      rcases List.mem_cons.mp hb with rfl | hb2
      · exact hlo a ha
      · exact hs3 a ha b hb2
  -- bounds
  have hbnd' : ∀ w ∈ valsOf t.leaves_ as ++ (t.leaves_.getD q zeroLeaf).value ::
      v :: valsOf t.leaves_ bs, w < 2 ^ 64 := by
    intro w hw
    rcases List.mem_append.mp hw with hw1 | hw2
    · exact hbnd w (List.mem_append_left _ hw1)
    · rcases List.mem_cons.mp hw2 with rfl | hw3
      · exact hbnd _ (List.mem_append_right _ (List.mem_cons_self _ _))
      · rcases List.mem_cons.mp hw3 with rfl | hw4
        · exact hv64
        · exact hbnd _ (List.mem_append_right _ (List.mem_cons_of_mem _ hw4))
  -- the multiset of recorded values gains v
  have hperm' : (valsOf t.leaves_ as ++ (t.leaves_.getD q zeroLeaf).value :: v ::
      valsOf t.leaves_ bs).tail.Perm (v :: inserted) := by
    have eold : valsOf t.leaves_ as ++ (t.leaves_.getD q zeroLeaf).value ::
        valsOf t.leaves_ bs =
        (valsOf t.leaves_ as ++ [(t.leaves_.getD q zeroLeaf).value]) ++
          valsOf t.leaves_ bs := by simp
    have e : valsOf t.leaves_ as ++ (t.leaves_.getD q zeroLeaf).value :: v ::
        valsOf t.leaves_ bs =
        (valsOf t.leaves_ as ++ [(t.leaves_.getD q zeroLeaf).value]) ++ v ::
          valsOf t.leaves_ bs := by simp
    rw [eold, tail_append_left _ _ (by simp)] at hperm
    rw [e, tail_append_left _ _ (by simp)]
    have hmid : List.Perm
        ((valsOf t.leaves_ as ++
          [(t.leaves_.getD q zeroLeaf).value]).tail ++ v :: valsOf t.leaves_ bs)
        (v :: ((valsOf t.leaves_ as ++
          [(t.leaves_.getD q zeroLeaf).value]).tail ++ valsOf t.leaves_ bs)) :=
      List.perm_middle
    exact hmid.trans (List.Perm.cons v hperm)
  -- head slot keeps the sentinel value
  have h0' : ((spliceLeaves t.leaves_ q v t.leaves_.length).getD 0 zeroLeaf).value
      = 0 := by
    rw [spliceLeaves_value _ _ _ _ _ h0len]
    exact h0
  refine ⟨_, update_element_eq_insert hashLeaf compress t v q hroom hscan,
    ⟨⟨as ++ q :: t.leaves_.length :: bs, hchain', hnd', ?_, h0', ?_, ?_⟩, ?_⟩,
    rfl, rfl, rfl, ?_⟩
  · show (valsOf (spliceLeaves t.leaves_ q v t.leaves_.length)
        (as ++ q :: t.leaves_.length :: bs)).Sorted (· < ·)
    rw [hvals']; exact hsorted'
  · show ∀ w ∈ valsOf (spliceLeaves t.leaves_ q v t.leaves_.length)
        (as ++ q :: t.leaves_.length :: bs), w < 2 ^ 64
    rw [hvals']; exact hbnd'
  · show ((valsOf (spliceLeaves t.leaves_ q v t.leaves_.length)
        (as ++ q :: t.leaves_.length :: bs)).tail).Perm (v :: inserted)
    rw [hvals']; exact hperm'
  · show (spliceLeaves t.leaves_ q v t.leaves_.length).length = _
    rw [spliceLeaves_length]
    simp [hlen]
  · show (spliceLeaves t.leaves_ q v t.leaves_.length).length = _
    rw [spliceLeaves_length]

/-- Master induction: inserting a list of fresh distinct values below
`2^64` into a well-formed tree with enough room succeeds and preserves the
sorted-linked-list invariant. -/
theorem insertAll_inv (hashLeaf : leaf → Nat) (compress : Nat → Nat → Nat) :
    ∀ (vs done : List Nat) (t : Tree),
      TreeListInv t done → vs.Nodup →
      (∀ v ∈ vs, 0 < v ∧ v < 2 ^ 64) → (∀ v ∈ vs, v ∉ done) →
      t.leaves_.length + vs.length ≤ t.total_size_ →
      ∃ t1, insertAll hashLeaf compress t vs = some t1 ∧
        TreeListInv t1 (vs.reverse ++ done) ∧
        t1.total_size_ = t.total_size_ ∧ t1.depth_ = t.depth_ ∧
        t1.level_str_idxs_ = t.level_str_idxs_ ∧
        t1.leaves_.length = t.leaves_.length + vs.length := by
  intro vs
  induction vs with
  | nil =>
    intro done t hInv _ _ _ _
    exact ⟨t, rfl, by simpa using hInv, rfl, rfl, rfl, by simp⟩
  | cons v vs ih =>
    intro done t hInv hnd hb hnm hcap
    have hroom : t.leaves_.length < t.total_size_ := by
      simp only [List.length_cons] at hcap
      omega
    obtain ⟨t1, hup, hInv1, hts, hdp, hls, hlen1⟩ :=
      update_element_insert hashLeaf compress t done v hInv
        (hb v (List.mem_cons_self _ _)).1 (hb v (List.mem_cons_self _ _)).2
        (hnm v (List.mem_cons_self _ _)) hroom
    obtain ⟨t2, hins, hInv2, hts2, hdp2, hls2, hlen2⟩ :=
      ih (v :: done) t1 hInv1 hnd.of_cons
        (fun w hw => hb w (List.mem_cons_of_mem _ hw))
        (by
          intro w hw
          rw [List.mem_cons]
          push_neg
          refine ⟨fun he => (List.nodup_cons.mp hnd).1 (he ▸ hw), ?_⟩
          exact hnm w (List.mem_cons_of_mem _ hw))
        (by
          rw [hlen1, hts]
          simp only [List.length_cons] at hcap
          omega)
    refine ⟨t2, ?_, ?_, by rw [hts2, hts], by rw [hdp2, hdp], by rw [hls2, hls], ?_⟩
    · simp only [insertAll]
      rw [hup]
      exact hins
    · have e : vs.reverse ++ (v :: done) = (v :: vs).reverse ++ done := by simp
      rw [e] at hInv2
      exact hInv2
    · rw [hlen2, hlen1]
      simp only [List.length_cons]
      omega

/-- The list invariant holds for the freshly constructed tree with no
values recorded. -/
theorem TreeListInv_construct (hashLeaf : leaf → Nat) (compress : Nat → Nat → Nat)
    (depth : Nat) : TreeListInv (construct hashLeaf compress depth) [] := by
  constructor
  · refine ⟨[0], ?_, by simp, ?_, rfl, ?_, ?_⟩
    · exact ⟨rfl, by rw [construct_leaves]; simp, rfl⟩
    · exact List.sorted_singleton 0
    · intro w hw
      rw [construct_leaves] at hw
      rcases List.mem_singleton.mp hw with rfl
      show (0 : Nat) < 2 ^ 64
      omega
    · exact List.Perm.nil
  · rw [construct_leaves]
    rfl

/-- The spec-side reading of the linked list agrees with the chain
certificate. -/
theorem chainVals_eq {leaves : List leaf} :
    ∀ {is : List Nat} (i fuel : Nat), IsChain leaves i is → is.length ≤ fuel →
      chainVals leaves fuel i = (valsOf leaves is).tail := by
  intro is
  induction is with
  | nil => intro i fuel h; exact absurd h (by simp [IsChain])
  | cons j rest ih =>
    intro i fuel hch hfuel
    obtain ⟨f, rfl⟩ : ∃ f, fuel = f + 1 := by
      cases fuel with
      | zero => simp at hfuel
      | succ f => exact ⟨f, rfl⟩
    cases rest with
    | nil =>
      obtain ⟨hij, hlen, hz⟩ := hch
      simp only [chainVals]
      rw [if_pos hz, valsOf_cons, valsOf_nil, List.tail_cons]
    | cons k rest2 =>
      obtain ⟨hij, hlen, hnz, hidx, hlink, hch2⟩ := hch
      simp only [chainVals]
      rw [if_neg hnz, hidx, hlink,
        ih k f hch2 (by simp only [List.length_cons] at hfuel ⊢; omega)]
      rw [valsOf_cons, List.tail_cons, valsOf_cons, List.tail_cons, valsOf_cons]

/-- `insertAll` distributes over append. -/
theorem insertAll_append (hashLeaf : leaf → Nat) (compress : Nat → Nat → Nat) :
    ∀ (xs ys : List Nat) (t : Tree),
      insertAll hashLeaf compress t (xs ++ ys) =
        match insertAll hashLeaf compress t xs with
        | none => none
        | some t1 => insertAll hashLeaf compress t1 ys := by
  intro xs
  induction xs with
  | nil => intro ys t; rfl
  | cons x xs ih =>
    intro ys t
    simp only [List.cons_append, insertAll]
    cases update_element hashLeaf compress t x with
    | none => rfl
    | some p => exact ih ys p.2

/-- C1 (amended): for every sequence of distinct non-zero values below
`2^64` inserted one at a time via `update_element` into a tree with enough
free slots, following `nextIndex` from leaf 0 after the insertions yields
leaf values in strictly ascending order (excluding the sentinel's zero),
and the yielded sequence is exactly the multiset of inserted values. -/
theorem C1_sorted_linked_list (hashLeaf : leaf → Nat) (compress : Nat → Nat → Nat)
    (d : Nat) (vs : List Nat) (hd : 1 ≤ d) (hnd : vs.Nodup)
    (hvals : ∀ v ∈ vs, v ≠ 0 ∧ v < 2 ^ 64) (hroom : vs.length + 1 ≤ 2 ^ d) :
    ∃ t1, insertAll hashLeaf compress (construct hashLeaf compress d) vs = some t1 ∧
      (chainVals t1.leaves_ t1.leaves_.length 0).Sorted (· < ·) ∧
      (chainVals t1.leaves_ t1.leaves_.length 0).Perm vs := by
  obtain ⟨t1, hins, ⟨⟨is, hch, hnd1, hsort1, h01, hbnd1, hperm1⟩, hlen1⟩, _, _, _, _⟩ :=
    insertAll_inv hashLeaf compress vs [] (construct hashLeaf compress d)
      (TreeListInv_construct _ _ _) hnd
      (fun v hv => ⟨Nat.pos_of_ne_zero (hvals v hv).1, (hvals v hv).2⟩)
      (fun v _ => List.not_mem_nil v)
      (by
        rw [construct_leaves, construct_total_size]
        simp only [List.length_singleton]
        omega)
  have hcv : chainVals t1.leaves_ t1.leaves_.length 0 = (valsOf t1.leaves_ is).tail :=
    chainVals_eq 0 t1.leaves_.length hch (chain_length_le hch hnd1)
  refine ⟨t1, hins, ?_, ?_⟩
  · rw [hcv]
    cases hv : valsOf t1.leaves_ is with
    | nil => simp
    | cons x l =>
      rw [hv] at hsort1
      rw [List.tail_cons]
      exact (List.sorted_cons.mp hsort1).2
  · rw [hcv]
    exact hperm1.trans (by simpa using List.reverse_perm vs)

theorem C1_witness :
    ∃ t1, insertAll cHash cCompress (construct cHash cCompress 2) [5, 3] = some t1 ∧
      (chainVals t1.leaves_ t1.leaves_.length 0).Sorted (· < ·) ∧
      (chainVals t1.leaves_ t1.leaves_.length 0).Perm [5, 3] :=
  C1_sorted_linked_list cHash cCompress 2 [5, 3] (by decide) (by decide)
    (by decide) (by decide)

/-- C4 (amended): inserting a value already recorded in the linked list
(or the value 0 when nothing has been inserted) is a no-op returning the
constant `fr(0)`: the entire object state — root, occupied count, leaf
pre-images, stored hashes, statuses — is the state before the call. -/
theorem C4_duplicate_no_op (hashLeaf : leaf → Nat) (compress : Nat → Nat → Nat)
    (d : Nat) (vs : List Nat) (t : Tree) (v : Nat)
    (hd : 1 ≤ d) (hnd : vs.Nodup) (hvals : ∀ w ∈ vs, w ≠ 0 ∧ w < 2 ^ 64)
    (hroom : vs.length + 1 ≤ 2 ^ d)
    (ht : insertAll hashLeaf compress (construct hashLeaf compress d) vs = some t)
    (hv : v ∈ vs ∨ (v = 0 ∧ vs = [])) :
    update_element hashLeaf compress t v = some (0, t) := by
  rcases hv with hv | ⟨rfl, rfl⟩
  · obtain ⟨t1, hins, hInv1, _, _, _, _⟩ :=
      insertAll_inv hashLeaf compress vs [] (construct hashLeaf compress d)
        (TreeListInv_construct _ _ _) hnd
        (fun w hw => ⟨Nat.pos_of_ne_zero (hvals w hw).1, (hvals w hw).2⟩)
        (fun w _ => List.not_mem_nil w)
        (by
          rw [construct_leaves, construct_total_size]
          simp only [List.length_singleton]
          omega)
    rw [hins] at ht
    obtain rfl := Option.some.inj ht
    exact update_element_dup hashLeaf compress _ _ v hInv1
      (by simpa using List.mem_reverse.mpr hv)
  · simp only [insertAll] at ht
    obtain rfl := Option.some.inj ht
    apply update_element_eq_dup
    · rw [construct_leaves, construct_total_size]
      have h2 : 2 ^ 1 ≤ 2 ^ d := Nat.pow_le_pow_right (by omega) hd
      simp only [List.length_singleton]
      omega
    · rw [construct_leaves]
      rfl

theorem C4_witness :
    ∃ t, insertAll cHash cCompress (construct cHash cCompress 2) [5] = some t ∧
      update_element cHash cCompress t 5 = some (0, t) := by
  refine ⟨_, rfl, ?_⟩
  exact C4_duplicate_no_op cHash cCompress 2 [5] _ 5 (by decide) (by decide)
    (by decide) (by decide) rfl (Or.inl (by decide))

/-- C5 (amended): inserting `total_size` distinct non-zero values (below
`2^64`) into a fresh tree leaves the occupied count exactly `total_size`
(the sentinel plus `total_size - 1` inserted values fill every slot; the
final insertion already hits the capacity check), and every further call
to `update_element` is a silent no-op: it leaves the entire state
unchanged and returns the constant `fr(0)` — the same value a successful
insertion returns — so no capacity error is signalled and the value is
silently dropped. -/
theorem C5_capacity (hashLeaf : leaf → Nat) (compress : Nat → Nat → Nat)
    (d : Nat) (vs : List Nat) (hd : 1 ≤ d) (hnd : vs.Nodup)
    (hvals : ∀ v ∈ vs, v ≠ 0 ∧ v < 2 ^ 64) (hlen : vs.length = 2 ^ d) :
    ∃ t1, insertAll hashLeaf compress (construct hashLeaf compress d) vs = some t1 ∧
      t1.leaves_.length = 2 ^ d ∧
      ∀ w, update_element hashLeaf compress t1 w = some (0, t1) := by
  have h2 : 2 ^ 1 ≤ 2 ^ d := Nat.pow_le_pow_right (by omega) hd
  have hne : vs ≠ [] := by
    intro h
    rw [h] at hlen
    simp only [List.length_nil] at hlen
    omega
  obtain ⟨vs0, w0, rfl⟩ : ∃ vs0 w0, vs = vs0 ++ [w0] :=
    ⟨vs.dropLast, vs.getLast hne, (List.dropLast_append_getLast hne).symm⟩
  have hlen0 : vs0.length = 2 ^ d - 1 := by
    simp only [List.length_append, List.length_singleton] at hlen
    omega
  obtain ⟨t0, hins0, hInv0, hts0, _, _, hlen0'⟩ :=
    insertAll_inv hashLeaf compress vs0 [] (construct hashLeaf compress d)
      (TreeListInv_construct _ _ _) (List.nodup_append.mp hnd).1
      (fun w hw => ⟨Nat.pos_of_ne_zero (hvals w (List.mem_append_left _ hw)).1,
        (hvals w (List.mem_append_left _ hw)).2⟩)
      (fun w _ => List.not_mem_nil w)
      (by
        rw [construct_leaves, construct_total_size]
        simp only [List.length_singleton]
        omega)
  have hfull : t0.total_size_ ≤ t0.leaves_.length := by
    rw [hts0, construct_total_size, hlen0', construct_leaves]
    simp only [List.length_singleton]
    omega
  have hlen2 : t0.leaves_.length = 2 ^ d := by
    rw [hlen0', construct_leaves]
    simp only [List.length_singleton]
    omega
  refine ⟨t0, ?_, hlen2, fun w => update_element_full _ _ _ _ hfull⟩
  rw [insertAll_append, hins0]
  show insertAll hashLeaf compress t0 [w0] = some t0
  simp only [insertAll]
  rw [update_element_full _ _ _ _ hfull]

theorem C5_witness :
    ∃ t1, insertAll cHash cCompress (construct cHash cCompress 1) [7, 9] = some t1 ∧
      t1.leaves_.length = 2 ^ 1 ∧
      update_element cHash cCompress t1 11 = some (0, t1) := by
  obtain ⟨t1, h1, h2, h3⟩ := C5_capacity cHash cCompress 1 [7, 9] (by decide)
    (by decide) (by decide) (by decide)
  exact ⟨t1, h1, h2, h3 11⟩

/-- C10 (amended): the duplicate test and the ordering test of the scan
compare only low 64 bits, so states agreeing on `nextIndex`, on the low 64
bits of `nextValue`, and on exact zeroness of `nextValue` are scanned
identically for candidates agreeing in their low 64 bits. -/
theorem C10_low64_scan (l1 l2 : List leaf) (v1 v2 : Nat)
    (hag : scanAgree l1 l2) (hv : u64 v1 = u64 v2) :
    ∀ (fuel start : Nat),
      scanLoop l1 v1 fuel start = scanLoop l2 v2 fuel start := by
  intro fuel
  induction fuel with
  | zero => intro _; rfl
  | succ f ih =>
    intro start
    obtain ⟨hlen, hfields⟩ := hag
    rcases lt_or_ge start l1.length with hs | hs
    · obtain ⟨hidx, hnv, hz⟩ := hfields start hs
      by_cases h1 : u64 (l1.getD start zeroLeaf).nextValue = u64 v1
      · have h2 : u64 (l2.getD start zeroLeaf).nextValue = u64 v2 := by
          rw [← hnv, ← hv]; exact h1
        simp only [scanLoop]
        rw [if_pos h1, if_pos h2]
      · have h2 : ¬ u64 (l2.getD start zeroLeaf).nextValue = u64 v2 := by
          rw [← hnv, ← hv]; exact h1
        by_cases h3 : u64 v1 < u64 (l1.getD start zeroLeaf).nextValue ∨
            (l1.getD start zeroLeaf).nextValue = 0
        · have h4 : u64 v2 < u64 (l2.getD start zeroLeaf).nextValue ∨
              (l2.getD start zeroLeaf).nextValue = 0 := by
            rcases h3 with h3 | h3
            · left; rw [← hnv, ← hv]; exact h3
            · right; exact hz.mp h3
          simp only [scanLoop]
          rw [if_neg h1, if_neg h2, if_pos h3, if_pos h4]
        · have h4 : ¬ (u64 v2 < u64 (l2.getD start zeroLeaf).nextValue ∨
              (l2.getD start zeroLeaf).nextValue = 0) := by
            intro hc
            apply h3
            rcases hc with hc | hc
            · left; rw [hnv, hv]; exact hc
            · right; exact hz.mpr hc
          simp only [scanLoop]
          rw [if_neg h1, if_neg h2, if_neg h3, if_neg h4, hidx]
          exact ih _
    · have hs2 : l2.length ≤ start := hlen ▸ hs
      have e1 : l1.getD start zeroLeaf = zeroLeaf := getD_len_le _ _ _ hs
      have e2 : l2.getD start zeroLeaf = zeroLeaf := getD_len_le _ _ _ hs2
      simp only [scanLoop]
      rw [e1, e2]
      have hz1 : zeroLeaf.nextValue = 0 := rfl
      by_cases h1 : u64 zeroLeaf.nextValue = u64 v1
      · have h2 : u64 zeroLeaf.nextValue = u64 v2 := by rw [← hv]; exact h1
        rw [if_pos h1, if_pos h2]
      · have h2 : ¬ u64 zeroLeaf.nextValue = u64 v2 := by rw [← hv]; exact h1
        have h3 : u64 v1 < u64 zeroLeaf.nextValue ∨ zeroLeaf.nextValue = 0 :=
          Or.inr hz1
        have h4 : u64 v2 < u64 zeroLeaf.nextValue ∨ zeroLeaf.nextValue = 0 :=
          Or.inr hz1
        rw [if_neg h1, if_pos h3, if_neg h2, if_pos h4]

theorem C10_witness :
    scanAgree [⟨0, 1, 5⟩, ⟨5, 0, 0⟩]
        [⟨2 ^ 64, 1, 2 ^ 64 + 5⟩, ⟨2 ^ 64 + 5, 0, 0⟩] ∧
    u64 3 = u64 (2 ^ 64 + 3) ∧
    scanLoop [⟨0, 1, 5⟩, ⟨5, 0, 0⟩] 3 2 0 =
      scanLoop [⟨2 ^ 64, 1, 2 ^ 64 + 5⟩, ⟨2 ^ 64 + 5, 0, 0⟩] (2 ^ 64 + 3) 2 0 :=
  ⟨by simp only [scanAgree]; decide, by decide,
    C10_low64_scan _ _ _ _ (by simp only [scanAgree]; decide) (by decide) 2 0⟩

/-! Generic invariant lemma for folds over `List.range'`. -/

theorem foldl_range'_inv {α : Type} (P : Nat → α → Prop) (f : α → Nat → α) :
    ∀ (n s : Nat) (a0 : α), P s a0 →
      (∀ m a, s ≤ m → m < s + n → P m a → P (m + 1) (f a m)) →
      P (s + n) ((List.range' s n).foldl f a0) := by
  intro n
  induction n with
  | zero => intro s a0 h0 _; simpa using h0
  | succ n ih =>
    intro s a0 h0 hstep
    rw [List.range'_succ]
    simp only [List.foldl_cons]
    have h1 : P (s + 1) (f a0 s) := hstep s a0 le_rfl (by omega) h0
    have h2 := ih (s + 1) (f a0 s) h1
      (fun m a hm hm2 hp => hstep m a (by omega) (by omega) hp)
    have e : s + 1 + n = s + (n + 1) := by omega
    rw [e] at h2
    exact h2

/-! Arithmetic facts about the level-offset table. -/

theorem levelStart_zero (d : Nat) : levelStart d 0 = 0 := by
  unfold levelStart
  simp

theorem levelStart_one (d : Nat) : levelStart d 1 = 2 ^ d := by
  unfold levelStart
  rw [Nat.add_sub_cancel]
  have e : 2 ^ (d + 1) = 2 * 2 ^ d := by rw [pow_succ]; ring
  omega

theorem levelStart_d (d : Nat) : levelStart d d = 2 ^ (d + 1) - 2 := by
  unfold levelStart
  have e : d + 1 - d = 1 := by omega
  rw [e]
  norm_num

theorem levelStart_le_mono (d : Nat) {l l' : Nat} (h : l ≤ l') :
    levelStart d l ≤ levelStart d l' := by
  unfold levelStart
  have h1 : 2 ^ (d + 1 - l') ≤ 2 ^ (d + 1 - l) :=
    Nat.pow_le_pow_right (by omega) (by omega)
  have h2 : 2 ^ (d + 1 - l) ≤ 2 ^ (d + 1) :=
    Nat.pow_le_pow_right (by omega) (by omega)
  omega

theorem levelStart_lt_mono (d : Nat) {l l' : Nat} (h : l < l') (h2 : l' ≤ d + 1) :
    levelStart d l < levelStart d l' := by
  unfold levelStart
  have h1 : 2 ^ (d + 1 - l') < 2 ^ (d + 1 - l) :=
    Nat.pow_lt_pow_right (by omega) (by omega)
  have h3 : 2 ^ (d + 1 - l) ≤ 2 ^ (d + 1) :=
    Nat.pow_le_pow_right (by omega) (by omega)
  omega

theorem levelStart_succ (d : Nat) {l : Nat} (hl : l ≤ d) :
    levelStart d (l + 1) = levelStart d l + 2 ^ (d - l) := by
  unfold levelStart
  have e1 : d + 1 - l = (d - l) + 1 := by omega
  have e2 : d + 1 - (l + 1) = d - l := by omega
  have e3 : 2 ^ ((d - l) + 1) = 2 * 2 ^ (d - l) := by rw [pow_succ]; ring
  have e4 : 2 ^ (d - l) ≤ 2 ^ (d + 1) := Nat.pow_le_pow_right (by omega) (by omega)
  have e5 : 2 ^ ((d - l) + 1) ≤ 2 ^ (d + 1) := Nat.pow_le_pow_right (by omega) (by omega)
  rw [e1, e2]
  omega

/-- The parent map on flat indices: the parent of the level-`l` node with
offset `k` is the level-`l+1` node with offset `k / 2`, and in flat terms
it is `2^d + (flat index) / 2` uniformly. -/
theorem par_levelStart (d : Nat) {l : Nat} (hl : l ≤ d) (k : Nat) :
    2 ^ d + (levelStart d l + k) / 2 = levelStart d (l + 1) + k / 2 := by
  unfold levelStart
  have e1 : d + 1 - l = (d - l) + 1 := by omega
  have e2 : d + 1 - (l + 1) = d - l := by omega
  have e3 : 2 ^ ((d - l) + 1) = 2 * 2 ^ (d - l) := by rw [pow_succ]; ring
  have e4 : 2 ^ (d - l) ≤ 2 ^ d := Nat.pow_le_pow_right (by omega) (by omega)
  have e5 : 2 ^ (d + 1) = 2 * 2 ^ d := by rw [pow_succ]; ring
  rw [e1, e2]
  omega

theorem getD_map_range (f : Nat → Nat) (n l : Nat) (hl : l < n) :
    ((List.range n).map f).getD l 0 = f l := by
  rw [List.getD_eq_getElem?_getD, List.getElem?_map, List.getElem?_range hl]
  rfl

/-- The table built by the constructor is the closed-form level-start
table. -/
theorem levelStrIdxs_eq (d : Nat) (hd : 1 ≤ d) :
    levelStrIdxs d = (List.range d).map (levelStart d) := by
  unfold levelStrIdxs
  have h := foldl_range'_inv (fun m ls => ls = (List.range m).map (levelStart d))
    (fun ls i => ls ++ [ls.getD (i - 1) 0 + 2 ^ (d - (i - 1))]) (d - 1) 1 [0]
    (by
      dsimp only
      have e : List.range 1 = [0] := rfl
      rw [e, List.map_singleton, levelStart_zero])
    (by
      intro m ls hm hm2 hls
      dsimp only at hls ⊢
      subst hls
      rw [getD_map_range _ _ _ (by omega)]
      have e : levelStart d (m - 1) + 2 ^ (d - (m - 1)) = levelStart d m := by
        have h1 := levelStart_succ d (show m - 1 ≤ d by omega)
        have e2 : m - 1 + 1 = m := by omega
        rw [e2] at h1
        exact h1.symm
      rw [e, List.range_succ, List.map_append, List.map_singleton])
  have e : 1 + (d - 1) = d := by omega
  rw [e] at h
  exact h

theorem upd_self {α : Type} (f : Nat → α) (i : Nat) (x : α) : upd f i x i = x := by
  simp [upd]

theorem upd_ne {α : Type} (f : Nat → α) (i : Nat) (x : α) (j : Nat) (h : j ≠ i) :
    upd f i x j = f j := by
  simp [upd, h]

theorem levelStrIdxs_getD (d : Nat) (hd : 1 ≤ d) {l : Nat} (hl : l < d) :
    (levelStrIdxs d).getD l 0 = levelStart d l := by
  rw [levelStrIdxs_eq d hd]
  exact getD_map_range _ _ _ hl

theorem levelStrIdxs_length (d : Nat) (hd : 1 ≤ d) :
    (levelStrIdxs d).length = d := by
  rw [levelStrIdxs_eq d hd]
  simp

/-- The inner level-lookup loop finds exactly the level of an internal flat
index and the start of the level below it. -/
theorem locateLevel_eq (d : Nat) (hd : 2 ≤ d) {l k : Nat} (hl : 1 ≤ l)
    (hl2 : l < d) (hk : k < 2 ^ (d - l)) :
    locateLevel (levelStrIdxs d) (levelStart d l + k) =
      (levelStart d l, levelStart d (l - 1)) := by
  unfold locateLevel
  rw [levelStrIdxs_length d (by omega), List.range_eq_range']
  have hfire : ∀ m, m ≤ l → levelStart d m ≤ levelStart d l + k :=
    fun m hm => le_trans (levelStart_le_mono d hm) (Nat.le_add_right _ _)
  have hnofire : ∀ m, l < m → m < d → ¬ (levelStart d m ≤ levelStart d l + k) := by
    intro m hm hm2 hc
    have h1 : levelStart d (l + 1) ≤ levelStart d m := levelStart_le_mono d (by omega)
    have h2 : levelStart d (l + 1) = levelStart d l + 2 ^ (d - l) :=
      levelStart_succ d (by omega)
    omega
  have h := foldl_range'_inv
    (fun m acc => (m = 0 ∧ acc = (0, 0)) ∨
      (1 ≤ m ∧ acc = (levelStart d (min (m - 1) l),
        if min (m - 1) l = 0 then 0 else levelStart d (min (m - 1) l - 1))))
    (fun acc m =>
      if (levelStrIdxs d).getD m 0 ≤ levelStart d l + k then
        ((levelStrIdxs d).getD m 0,
          if 0 < m then (levelStrIdxs d).getD (m - 1) 0 else acc.2)
      else acc)
    d 0 (0, 0) (Or.inl ⟨rfl, rfl⟩)
    (by
      intro m acc hm0 hmd hp
      dsimp only at hp ⊢
      simp only [Nat.zero_add] at hmd
      rcases Nat.eq_zero_or_pos m with rfl | hmpos
      · -- level 0 always fires, prev stays
        rw [levelStrIdxs_getD d (by omega) (by omega), if_pos (hfire 0 (by omega)),
          if_neg (by omega)]
        rcases hp with ⟨_, rfl⟩ | ⟨h1, _⟩
        · right
          refine ⟨by omega, ?_⟩
          have e1 : min (0 + 1 - 1) l = 0 := by omega
          rw [e1, if_pos rfl]
        · omega
      · rcases hp with ⟨h0, _⟩ | ⟨h1, hacc⟩
        · omega
        · rcases le_or_lt m l with hml | hml
          · -- still below the target level: fires
            rw [levelStrIdxs_getD d (by omega) (by omega), if_pos (hfire m hml),
              if_pos hmpos, levelStrIdxs_getD d (by omega) (by omega)]
            right
            refine ⟨by omega, ?_⟩
            have e1 : min (m + 1 - 1) l = m := by omega
            rw [e1]
            have e2 : ¬ (m = 0) := by omega
            rw [if_neg e2]
          · -- above the target level: no fire
            rw [levelStrIdxs_getD d (by omega) (by omega),
              if_neg (hnofire m hml hmd)]
            right
            refine ⟨by omega, ?_⟩
            have e1 : min (m + 1 - 1) l = l := by omega
            have e2 : min (m - 1) l = l := by omega
            rw [e1, ← e2, hacc])
  simp only [Nat.zero_add] at h
  rcases h with ⟨h0, _⟩ | ⟨_, hacc⟩
  · omega
  · rw [hacc]
    have e1 : min (d - 1) l = l := by omega
    rw [e1, if_neg (by omega)]

/-- Every internal flat index decomposes uniquely as a level start plus an
in-level offset. -/
theorem level_decomp (d : Nat) {j : Nat} (h1 : 2 ^ d ≤ j)
    (h2 : j < 2 ^ (d + 1) - 2) :
    ∃ l k, 1 ≤ l ∧ l < d ∧ k < 2 ^ (d - l) ∧ j = levelStart d l + k := by
  have hd2 : 2 ≤ d := by
    by_contra hc
    push_neg at hc
    interval_cases d <;> simp_all <;> omega
  have hP1 : levelStart d 1 ≤ j := by rw [levelStart_one]; exact h1
  have hL1 : 1 ≤ Nat.findGreatest (fun l => levelStart d l ≤ j) (d - 1) :=
    @Nat.le_findGreatest 1 (fun l => levelStart d l ≤ j) _ (d - 1) (by omega) hP1
  have hLd : Nat.findGreatest (fun l => levelStart d l ≤ j) (d - 1) ≤ d - 1 :=
    Nat.findGreatest_le _
  have hPL : levelStart d (Nat.findGreatest (fun l => levelStart d l ≤ j) (d - 1)) ≤ j :=
    @Nat.findGreatest_spec 1 (fun l => levelStart d l ≤ j) _ (d - 1) (by omega) hP1
  refine ⟨Nat.findGreatest (fun l => levelStart d l ≤ j) (d - 1),
    j - levelStart d (Nat.findGreatest (fun l => levelStart d l ≤ j) (d - 1)),
    hL1, by omega, ?_, by omega⟩
  by_contra hc
  push_neg at hc
  have hsucc : levelStart d (Nat.findGreatest (fun l => levelStart d l ≤ j) (d - 1) + 1) ≤ j := by
    rw [levelStart_succ d (by omega)]
    omega
  rcases Nat.lt_or_ge (Nat.findGreatest (fun l => levelStart d l ≤ j) (d - 1)) (d - 1)
    with hlt | hge
  · exact @Nat.findGreatest_is_greatest
      (Nat.findGreatest (fun l => levelStart d l ≤ j) (d - 1) + 1)
      (fun l => levelStart d l ≤ j) _ (d - 1) (by omega) (by omega) hsucc
  · have he : Nat.findGreatest (fun l => levelStart d l ≤ j) (d - 1) + 1 = d := by omega
    rw [he, levelStart_d] at hsucc
    omega

theorem level_decomp_unique (d : Nat) {l k l' k' : Nat}
    (hl : l ≤ d) (hk : k < 2 ^ (d - l)) (hl' : l' ≤ d) (hk' : k' < 2 ^ (d - l'))
    (he : levelStart d l + k = levelStart d l' + k') : l = l' ∧ k = k' := by
  rcases lt_trichotomy l l' with h | h | h
  · exfalso
    have h1 : levelStart d (l + 1) = levelStart d l + 2 ^ (d - l) :=
      levelStart_succ d (by omega)
    have h2 : levelStart d (l + 1) ≤ levelStart d l' := levelStart_le_mono d (by omega)
    omega
  · subst h
    exact ⟨rfl, by omega⟩
  · exfalso
    have h1 : levelStart d (l' + 1) = levelStart d l' + 2 ^ (d - l') :=
      levelStart_succ d (by omega)
    have h2 : levelStart d (l' + 1) ≤ levelStart d l := levelStart_le_mono d (by omega)
    omega

theorem AncD_zero (s0 : Nat → node_status) (d k : Nat) :
    AncD s0 d 0 k ↔ k < 2 ^ d ∧ s0 k = node_status.DIRTY := by
  unfold AncD
  constructor
  · rintro ⟨jl, h1, h2, h3⟩
    rw [pow_zero, Nat.div_one] at h3
    subst h3
    exact ⟨h1, h2⟩
  · rintro ⟨h1, h2⟩
    exact ⟨k, h1, h2, by rw [pow_zero, Nat.div_one]⟩

theorem AncD_succ (s0 : Nat → node_status) (d l k : Nat) :
    AncD s0 d (l + 1) k ↔ AncD s0 d l (2 * k) ∨ AncD s0 d l (2 * k + 1) := by
  unfold AncD
  constructor
  · rintro ⟨jl, h1, h2, h3⟩
    have e : jl / 2 ^ (l + 1) = jl / 2 ^ l / 2 := by
      rw [pow_succ, Nat.div_div_eq_div_mul]
    rw [e] at h3
    rcases Nat.mod_two_eq_zero_or_one (jl / 2 ^ l) with hm | hm
    · left; exact ⟨jl, h1, h2, by omega⟩
    · right; exact ⟨jl, h1, h2, by omega⟩
  · have e : ∀ jl : Nat, jl / 2 ^ (l + 1) = jl / 2 ^ l / 2 := by
      intro jl
      rw [pow_succ, Nat.div_div_eq_div_mul]
    rintro (⟨jl, h1, h2, h3⟩ | ⟨jl, h1, h2, h3⟩) <;>
      exact ⟨jl, h1, h2, by rw [e jl]; omega⟩

/-- One pass step of `build_hashes_from_leaves` preserves the build
invariant. -/
theorem buildStep_inv (compress : Nat → Nat → Nat) (d : Nat) (hd : 2 ≤ d)
    (h0 : Nat → Nat) (s0 : Nat → node_status)
    (P1 : ∀ l k, 1 ≤ l → l < d → k < 2 ^ (d - l) →
      s0 (levelStart d l + k) = node_status.DIRTY → (AncD s0 d l k ∨ l = d - 1))
    (m : Nat) (st : (Nat → Nat) × (Nat → node_status))
    (hm1 : 2 ^ d ≤ m) (hm2 : m < 2 ^ (d + 1) - 2)
    (hinv : BuildInv compress d h0 s0 m st) :
    BuildInv compress d h0 s0 (m + 1) (buildStep compress (levelStrIdxs d) st m) := by
  obtain ⟨l, k, hl1, hl2, hk, hmeq⟩ := level_decomp d hm1 hm2
  obtain ⟨I1, I2, I3, I4, I5, I6⟩ := hinv
  subst hmeq
  have hpowd : 2 ^ d = 2 * 2 ^ (d - 1) := by
    have e : 2 ^ (d - 1 + 1) = 2 * 2 ^ (d - 1) := by rw [pow_succ]; ring
    have e2 : d - 1 + 1 = d := by omega
    rw [e2] at e
    exact e
  have hsucc1 : levelStart d l = levelStart d (l - 1) + 2 ^ (d - (l - 1)) := by
    have h := levelStart_succ d (show l - 1 ≤ d by omega)
    have e : l - 1 + 1 = l := by omega
    rw [e] at h
    exact h
  have hpow : 2 ^ (d - (l - 1)) = 2 * 2 ^ (d - l) := by
    have e : d - (l - 1) = (d - l) + 1 := by omega
    rw [e, pow_succ]
    ring
  have hsuccl : levelStart d (l + 1) = levelStart d l + 2 ^ (d - l) :=
    levelStart_succ d (by omega)
  have hls2 : levelStart d 2 = 2 ^ d + 2 ^ (d - 1) := by
    have h := levelStart_succ d (show 1 ≤ d by omega)
    rw [levelStart_one] at h
    have e : d - 1 = d - 1 := rfl
    exact h
  have hm_ge : levelStart d 1 ≤ levelStart d l := levelStart_le_mono d hl1
  rw [levelStart_one] at hm_ge
  have hch_lt : levelStart d (l - 1) + 2 * k + 1 < levelStart d l := by omega
  have hloc := locateLevel_eq d hd hl1 hl2 hk
  -- the step specialized to this node
  have hstep : buildStep compress (levelStrIdxs d) st (levelStart d l + k) =
      if st.2 (levelStart d (l - 1) + 2 * k) = node_status.DIRTY ∨
          st.2 (levelStart d (l - 1) + 2 * k + 1) = node_status.DIRTY then
        (upd st.1 (levelStart d l + k)
          (compress (st.1 (levelStart d (l - 1) + 2 * k))
            (st.1 (levelStart d (l - 1) + 2 * k + 1))),
         upd (upd (upd st.2 (levelStart d (l - 1) + 2 * k) node_status.CLEAN)
            (levelStart d (l - 1) + 2 * k + 1) node_status.CLEAN)
            (levelStart d l + k) node_status.DIRTY)
      else st := by
    simp only [buildStep, hloc]
    have e1 : levelStart d l + k - levelStart d l = k := by omega
    have e2 : k * 2 = 2 * k := by ring
    rw [e1, e2]
  -- dirtiness of the two children is exactly dirtiness below this node
  have hchR : st.2 (levelStart d (l - 1) + 2 * k) = node_status.DIRTY ↔
      AncD s0 d (l - 1) (2 * k) := by
    by_cases hl1' : l = 1
    · subst hl1'
      simp only [Nat.sub_self, levelStart_zero, Nat.zero_add]
      rw [I4 (2 * k) (by omega), AncD_zero]
      rw [levelStart_one]
      constructor
      · rintro ⟨ha, _⟩; exact ⟨by omega, ha⟩
      · rintro ⟨_, ha⟩; exact ⟨ha, by omega⟩
    · have hll : 1 ≤ l - 1 := by omega
      have h4 := I5 (l - 1) (2 * k) hll (by omega) (by omega)
      rw [h4]
      have epar : levelStart d (l - 1 + 1) + 2 * k / 2 = levelStart d l + k := by
        have e : l - 1 + 1 = l := by omega
        rw [e]
        omega
      have hs0 : s0 (levelStart d (l - 1) + 2 * k) = node_status.DIRTY →
          AncD s0 d (l - 1) (2 * k) := by
        intro hdirty
        rcases P1 (l - 1) (2 * k) hll (by omega) (by omega) hdirty with h | h
        · exact h
        · omega
      constructor
      · rintro ⟨h | h, _⟩
        · exact h.1
        · exact hs0 h
      · intro ha
        exact ⟨Or.inl ⟨ha, by omega⟩, by omega⟩
  have hchL : st.2 (levelStart d (l - 1) + 2 * k + 1) = node_status.DIRTY ↔
      AncD s0 d (l - 1) (2 * k + 1) := by
    by_cases hl1' : l = 1
    · subst hl1'
      simp only [Nat.sub_self, levelStart_zero, Nat.zero_add]
      rw [I4 (2 * k + 1) (by omega), AncD_zero]
      rw [levelStart_one]
      constructor
      · rintro ⟨ha, _⟩; exact ⟨by omega, ha⟩
      · rintro ⟨_, ha⟩; exact ⟨ha, by omega⟩
    · have hll : 1 ≤ l - 1 := by omega
      have h4 := I5 (l - 1) (2 * k + 1) hll (by omega) (by omega)
      have easc : levelStart d (l - 1) + (2 * k + 1) = levelStart d (l - 1) + 2 * k + 1 := by
        omega
      rw [easc] at h4
      rw [h4]
      have epar : levelStart d (l - 1 + 1) + (2 * k + 1) / 2 = levelStart d l + k := by
        have e : l - 1 + 1 = l := by omega
        rw [e]
        omega
      have hs0 : s0 (levelStart d (l - 1) + 2 * k + 1) = node_status.DIRTY →
          AncD s0 d (l - 1) (2 * k + 1) := by
        intro hdirty
        rcases P1 (l - 1) (2 * k + 1) hll (by omega) (by omega) hdirty with h | h
        · exact h
        · omega
      constructor
      · rintro ⟨h | h, _⟩
        · exact h.1
        · exact hs0 h
      · intro ha
        exact ⟨Or.inl ⟨ha, by omega⟩, by omega⟩
  have hanc : AncD s0 d l k ↔ AncD s0 d (l - 1) (2 * k) ∨ AncD s0 d (l - 1) (2 * k + 1) := by
    have h := AncD_succ s0 d (l - 1) k
    have e : l - 1 + 1 = l := by omega
    rw [e] at h
    exact h
  have hcond : (st.2 (levelStart d (l - 1) + 2 * k) = node_status.DIRTY ∨
      st.2 (levelStart d (l - 1) + 2 * k + 1) = node_status.DIRTY) ↔ AncD s0 d l k := by
    rw [hchR, hchL]
    exact hanc.symm
  -- which positions are the parent of which
  have hparleaf : ∀ j, j < 2 ^ d → 2 ^ d + j / 2 = levelStart d l + k →
      l = 1 ∧ (j = 2 * k ∨ j = 2 * k + 1) := by
    intro j hj hpar
    by_cases hl1' : l = 1
    · refine ⟨hl1', ?_⟩
      rw [hl1', levelStart_one] at hpar
      omega
    · exfalso
      have h2 : levelStart d 2 ≤ levelStart d l := levelStart_le_mono d (by omega)
      omega
  have hparint : ∀ l' k', 1 ≤ l' → l' < d → k' < 2 ^ (d - l') →
      levelStart d (l' + 1) + k' / 2 = levelStart d l + k →
      l' = l - 1 ∧ (k' = 2 * k ∨ k' = 2 * k + 1) := by
    intro l' k' h1 h2 h3 hpar
    by_cases hld : l' + 1 = d
    · exfalso
      have e1 : levelStart d (l' + 1) = 2 ^ (d + 1) - 2 := by rw [hld, levelStart_d]
      have e2 : levelStart d (l + 1) ≤ levelStart d d := levelStart_le_mono d (by omega)
      rw [levelStart_d] at e2
      omega
    · have hpow2 : 2 ^ (d - l') = 2 * 2 ^ (d - (l' + 1)) := by
        have e : d - l' = (d - (l' + 1)) + 1 := by omega
        rw [e, pow_succ]
        ring
      obtain ⟨ha, hb⟩ := level_decomp_unique d (show l' + 1 ≤ d by omega)
        (show k' / 2 < 2 ^ (d - (l' + 1)) by omega) (show l ≤ d by omega) hk hpar
      refine ⟨by omega, by omega⟩
  have hm_unique : ∀ l' k', 1 ≤ l' → l' < d → k' < 2 ^ (d - l') →
      levelStart d l' + k' = levelStart d l + k → l' = l ∧ k' = k :=
    fun l' k' h1 h2 h3 he =>
      level_decomp_unique d (by omega) h3 (by omega) hk he
  have hF_ge : ∀ l' k', 1 ≤ l' → 2 ^ d ≤ levelStart d l' + k' := by
    intro l' k' h1
    have h2 := levelStart_le_mono d h1
    rw [levelStart_one] at h2
    omega
  have hls0 : l = 1 → levelStart d (l - 1) = 0 := by
    intro h
    rw [show l - 1 = 0 by omega]
    exact levelStart_zero d
  have hls1 : l = 1 → levelStart d l = 2 ^ d := by
    intro h
    rw [h]
    exact levelStart_one d
  rw [hstep]
  by_cases hA : AncD s0 d l k
  · rw [if_pos (hcond.mpr hA)]
    refine ⟨?_, ?_, ?_, ?_, ?_, ?_⟩
    · -- leaf hashes unchanged
      intro j hj
      dsimp only
      rw [upd_ne _ _ _ _ (by omega)]
      exact I1 j hj
    · -- positions at or above m+1 unchanged
      intro j hj
      dsimp only
      rw [upd_ne _ _ _ _ (by omega)]
      exact I2 j (by omega)
    · -- consistency at processed nodes
      intro l' k' h1 h2 h3 h4
      dsimp only
      rcases Nat.lt_or_ge (levelStart d l' + k') (levelStart d l + k) with hlt | hge
      · -- processed strictly earlier: frame
        have hchlt : levelStart d (l' - 1) + 2 * k' + 1 < levelStart d l' + k' := by
          have hs : levelStart d l' = levelStart d (l' - 1) + 2 ^ (d - (l' - 1)) := by
            have h := levelStart_succ d (show l' - 1 ≤ d by omega)
            have e : l' - 1 + 1 = l' := by omega
            rw [e] at h
            exact h
          have hp : 2 ^ (d - (l' - 1)) = 2 * 2 ^ (d - l') := by
            have e : d - (l' - 1) = (d - l') + 1 := by omega
            rw [e, pow_succ]
            ring
          omega
        have hI := I3 l' k' h1 h2 h3 hlt
        constructor
        · intro ha
          rw [upd_ne _ _ _ _ (by omega), upd_ne _ _ _ _ (by omega),
            upd_ne _ _ _ _ (by omega)]
          exact hI.1 ha
        · intro ha
          rw [upd_ne _ _ _ _ (by omega)]
          exact hI.2 ha
      · -- the node processed right now
        have heq : levelStart d l' + k' = levelStart d l + k := by omega
        obtain ⟨he1, he2⟩ := hm_unique l' k' h1 h2 h3 heq
        rw [he1, he2]
        constructor
        · intro _
          rw [upd_self, upd_ne _ _ _ _ (by omega), upd_ne _ _ _ _ (by omega)]
        · intro hna
          exact absurd hA hna
    · -- leaf statuses
      intro j hj
      dsimp only
      rw [upd_ne _ _ _ _ (show j ≠ levelStart d l + k by omega)]
      by_cases hjl : j = levelStart d (l - 1) + 2 * k + 1
      · -- slot of the left child (a leaf, forcing l = 1): freshly cleaned
        have hl1' : l = 1 := by
          by_contra hne
          have h2 : levelStart d 1 ≤ levelStart d (l - 1) := levelStart_le_mono d (by omega)
          rw [levelStart_one] at h2
          omega
        have e0 := hls0 hl1'
        have e1 := hls1 hl1'
        subst hjl
        rw [upd_self]
        constructor
        · intro h
          exact absurd h (by decide)
        · rintro ⟨_, hb⟩
          exfalso
          rw [e0] at hb
          rw [e1] at hb
          omega
      · rw [upd_ne _ _ _ _ hjl]
        by_cases hjr : j = levelStart d (l - 1) + 2 * k
        · -- slot of the right child (a leaf, forcing l = 1): freshly cleaned
          have hl1' : l = 1 := by
            by_contra hne
            have h2 : levelStart d 1 ≤ levelStart d (l - 1) := levelStart_le_mono d (by omega)
            rw [levelStart_one] at h2
            omega
          have e0 := hls0 hl1'
          have e1 := hls1 hl1'
          subst hjr
          rw [upd_self]
          constructor
          · intro h
            exact absurd h (by decide)
          · rintro ⟨_, hb⟩
            exfalso
            rw [e0] at hb
            rw [e1] at hb
            omega
        · rw [upd_ne _ _ _ _ hjr]
          rw [I4 j hj]
          have hX : 2 ^ d + j / 2 ≠ levelStart d l + k := by
            intro hEq
            obtain ⟨hl1', hjor⟩ := hparleaf j hj hEq
            have e0 := hls0 hl1'
            rcases hjor with h | h
            · exact hjr (by omega)
            · exact hjl (by omega)
          constructor
          · rintro ⟨ha, hb⟩
            exact ⟨ha, by omega⟩
          · rintro ⟨ha, hb⟩
            exact ⟨ha, by omega⟩
    · -- internal statuses
      intro l' k' h1 h2 h3
      dsimp only
      by_cases hFM : levelStart d l' + k' = levelStart d l + k
      · obtain ⟨he1, he2⟩ := hm_unique l' k' h1 h2 h3 hFM
        rw [he1, he2, upd_self]
        have hpar : levelStart d l + k < levelStart d (l + 1) + k / 2 := by omega
        constructor
        · intro _
          exact ⟨Or.inl ⟨hA, by omega⟩, by omega⟩
        · intro _
          rfl
      · rw [upd_ne _ _ _ _ hFM]
        by_cases hFL : levelStart d l' + k' = levelStart d (l - 1) + 2 * k + 1
        · -- the processed node's left child: freshly cleaned
          have hl2' : 2 ≤ l := by
            by_contra hc
            have h1e : l = 1 := by omega
            have hge := hF_ge l' k' h1
            have e0 := hls0 h1e
            have hk2 := hk
            rw [h1e] at hk2
            omega
          obtain ⟨he1, he2⟩ := level_decomp_unique d (show l' ≤ d by omega) h3
            (show l - 1 ≤ d by omega) (show 2 * k + 1 < 2 ^ (d - (l - 1)) by omega) hFL
          have hpareq : levelStart d (l' + 1) + k' / 2 = levelStart d l + k := by
            rw [show l' + 1 = l by omega]
            omega
          rw [hFL, upd_self]
          constructor
          · intro h
            exact absurd h (by decide)
          · rintro ⟨_, hb⟩
            exfalso
            omega
        · rw [upd_ne _ _ _ _ hFL]
          by_cases hFR : levelStart d l' + k' = levelStart d (l - 1) + 2 * k
          · -- the processed node's right child: freshly cleaned
            have hl2' : 2 ≤ l := by
              by_contra hc
              have h1e : l = 1 := by omega
              have hge := hF_ge l' k' h1
              have e0 := hls0 h1e
              have hk2 := hk
              rw [h1e] at hk2
              omega
            obtain ⟨he1, he2⟩ := level_decomp_unique d (show l' ≤ d by omega) h3
              (show l - 1 ≤ d by omega) (show 2 * k < 2 ^ (d - (l - 1)) by omega) hFR
            have hpareq : levelStart d (l' + 1) + k' / 2 = levelStart d l + k := by
              rw [show l' + 1 = l by omega]
              omega
            rw [hFR, upd_self]
            constructor
            · intro h
              exact absurd h (by decide)
            · rintro ⟨_, hb⟩
              exfalso
              omega
          · rw [upd_ne _ _ _ _ hFR]
            rw [I5 l' k' h1 h2 h3]
            have hXpar : levelStart d (l' + 1) + k' / 2 ≠ levelStart d l + k := by
              intro hEq
              obtain ⟨he1, he2⟩ := hparint l' k' h1 h2 h3 hEq
              subst he1
              rcases he2 with h | h
              · exact hFR (by omega)
              · exact hFL (by omega)
            constructor
            · rintro ⟨hor, hb⟩
              refine ⟨?_, by omega⟩
              rcases hor with ⟨ha, hc⟩ | hs
              · exact Or.inl ⟨ha, by omega⟩
              · exact Or.inr hs
            · rintro ⟨hor, hb⟩
              refine ⟨?_, by omega⟩
              rcases hor with ⟨ha, hc⟩ | hs
              · exact Or.inl ⟨ha, by omega⟩
              · exact Or.inr hs
    · -- the apex pair keeps its status
      intro j hj
      dsimp only
      rw [upd_ne _ _ _ _ (by omega), upd_ne _ _ _ _ (by omega),
        upd_ne _ _ _ _ (by omega)]
      exact I6 j hj
  · -- neither child dirty: no write at all this iteration
    have hnc : ¬ (st.2 (levelStart d (l - 1) + 2 * k) = node_status.DIRTY ∨
        st.2 (levelStart d (l - 1) + 2 * k + 1) = node_status.DIRTY) := by
      rw [hcond]
      exact hA
    rw [if_neg hnc]
    refine ⟨I1, fun j hj => I2 j (by omega), ?_, ?_, ?_, I6⟩
    · -- consistency
      intro l' k' h1 h2 h3 h4
      rcases Nat.lt_or_ge (levelStart d l' + k') (levelStart d l + k) with hlt | hge
      · exact I3 l' k' h1 h2 h3 hlt
      · have heq : levelStart d l' + k' = levelStart d l + k := by omega
        obtain ⟨he1, he2⟩ := hm_unique l' k' h1 h2 h3 heq
        rw [he1, he2]
        constructor
        · intro ha
          exact absurd ha hA
        · intro _
          exact I2 (levelStart d l + k) (by omega)
    · -- leaf statuses
      intro j hj
      by_cases hX : 2 ^ d + j / 2 = levelStart d l + k
      · obtain ⟨hl1', hjor⟩ := hparleaf j hj hX
        have e0 := hls0 hl1'
        constructor
        · intro hdirty
          exfalso
          apply hnc
          rcases hjor with h | h
          · left
            rw [show levelStart d (l - 1) + 2 * k = j by omega]
            exact hdirty
          · right
            rw [show levelStart d (l - 1) + 2 * k + 1 = j by omega]
            exact hdirty
        · rintro ⟨_, hb⟩
          exfalso
          omega
      · rw [I4 j hj]
        constructor
        · rintro ⟨ha, hb⟩
          exact ⟨ha, by omega⟩
        · rintro ⟨ha, hb⟩
          exact ⟨ha, by omega⟩
    · -- internal statuses
      intro l' k' h1 h2 h3
      by_cases hFM : levelStart d l' + k' = levelStart d l + k
      · obtain ⟨he1, he2⟩ := hm_unique l' k' h1 h2 h3 hFM
        rw [he1, he2, I5 l k hl1 hl2 hk]
        have hpar : levelStart d l + k < levelStart d (l + 1) + k / 2 := by omega
        constructor
        · rintro ⟨hor, _⟩
          rcases hor with ⟨ha, _⟩ | hs
          · exact absurd ha hA
          · exact ⟨Or.inr hs, by omega⟩
        · rintro ⟨hor, _⟩
          rcases hor with ⟨ha, _⟩ | hs
          · exact absurd ha hA
          · exact ⟨Or.inr hs, by omega⟩
      · by_cases hXpar : levelStart d (l' + 1) + k' / 2 = levelStart d l + k
        · -- F is a child of the idle node: its status conjunct is dead on
          -- both sides
          obtain ⟨he1, he2⟩ := hparint l' k' h1 h2 h3 hXpar
          subst he1
          constructor
          · intro hdirty
            exfalso
            apply hnc
            rcases he2 with h | h
            · left
              rw [show levelStart d (l - 1) + 2 * k = levelStart d (l - 1) + k' by omega]
              exact hdirty
            · right
              rw [show levelStart d (l - 1) + 2 * k + 1 =
                levelStart d (l - 1) + k' by omega]
              exact hdirty
          · rintro ⟨_, hb⟩
            exfalso
            omega
        · rw [I5 l' k' h1 h2 h3]
          constructor
          · rintro ⟨hor, hb⟩
            refine ⟨?_, by omega⟩
            rcases hor with ⟨ha, hc⟩ | hs
            · exact Or.inl ⟨ha, by omega⟩
            · exact Or.inr hs
          · rintro ⟨hor, hb⟩
            refine ⟨?_, by omega⟩
            rcases hor with ⟨ha, hc⟩ | hs
            · exact Or.inl ⟨ha, by omega⟩
            · exact Or.inr hs

theorem status_eq_clean {s : node_status} (h : s ≠ node_status.DIRTY) :
    s = node_status.CLEAN := by
  cases s with
  | CLEAN => rfl
  | DIRTY => exact absurd rfl h

theorem levelStart_ge (d : Nat) {l : Nat} (hl : 1 ≤ l) (k : Nat) :
    2 ^ d ≤ levelStart d l + k := by
  have h := levelStart_le_mono d hl
  rw [levelStart_one] at h
  omega

theorem levelStart_pred (d : Nat) (hd : 1 ≤ d) :
    levelStart d (d - 1) = 2 ^ (d + 1) - 4 := by
  show 2 ^ (d + 1) - 2 ^ (d + 1 - (d - 1)) = 2 ^ (d + 1) - 4
  rw [show d + 1 - (d - 1) = 2 from by omega]
  norm_num

theorem levelStart_even (d : Nat) {l : Nat} (hl : l ≤ d) :
    levelStart d l % 2 = 0 := by
  show (2 ^ (d + 1) - 2 ^ (d + 1 - l)) % 2 = 0
  have e1 : 2 ^ (d + 1) = 2 * 2 ^ d := by rw [pow_succ]; ring
  have e2 : 2 ^ (d + 1 - l) = 2 * 2 ^ (d - l) := by
    rw [show d + 1 - l = (d - l) + 1 from by omega, pow_succ]
    ring
  have e3 : 2 ^ (d - l) ≤ 2 ^ d := Nat.pow_le_pow_right (by omega) (by omega)
  omega

/-- Under an all-dirty status map, every node has a dirty leaf below it. -/
theorem AncD_all {s0 : Nat → node_status} {d : Nat}
    (h : ∀ j, j < 2 ^ d → s0 j = node_status.DIRTY) (l k : Nat) (hl : l ≤ d)
    (hk : k < 2 ^ (d - l)) : AncD s0 d l k := by
  have hpos : 0 < 2 ^ l := Nat.pow_pos (by omega)
  have hmul : 2 ^ (d - l) * 2 ^ l = 2 ^ d := by
    rw [← pow_add]
    congr 1
    omega
  have hb : k * 2 ^ l < 2 ^ d := by
    calc k * 2 ^ l < 2 ^ (d - l) * 2 ^ l := mul_lt_mul_of_pos_right hk hpos
    _ = 2 ^ d := hmul
  exact ⟨k * 2 ^ l, hb, h _ hb, by rw [Nat.mul_div_cancel _ hpos]⟩

theorem div_pow_lt {i d : Nat} (l : Nat) (hi : i < 2 ^ d) (hl : l ≤ d) :
    i / 2 ^ l < 2 ^ (d - l) := by
  rw [Nat.div_lt_iff_lt_mul (Nat.pow_pos (by omega))]
  calc i < 2 ^ d := hi
  _ = 2 ^ (d - l) * 2 ^ l := by rw [← pow_add]; congr 1; omega

/-- The leaf-fill loop of `init_hashes` as a pointwise description. -/
theorem fill_eq {α : Type} (z : α) : ∀ (n : Nat) (h : Nat → α) (j : Nat),
    ((List.range n).foldl (fun h i => upd h i z) h) j =
      if j < n then z else h j := by
  intro n
  induction n with
  | zero =>
    intro h j
    simp only [List.range_zero, List.foldl_nil]
    rw [if_neg (by omega)]
  | succ n ih =>
    intro h j
    rw [List.range_succ, List.foldl_append, List.foldl_cons, List.foldl_nil]
    by_cases hj : j = n
    · subst hj
      rw [upd_self, if_pos (by omega)]
    · rw [upd_ne _ _ _ _ hj, ih h j]
      by_cases hlt : j < n
      · rw [if_pos hlt, if_pos (by omega)]
      · rw [if_neg hlt, if_neg (by omega)]

/-- Main specification of a full `build_hashes_from_leaves` pass followed by
`calculate_root`: leaf hashes untouched, full internal consistency, the
cached root recombining the two nodes below the apex, all statuses clean
below those two, and those two dirty.  Hypotheses: internal dirty flags only
at the top level or above a dirty leaf (`P1`), nodes with no dirty leaf
below already consistent (`P2`), the two top nodes flagged dirty (`P0`). -/
theorem build_root_spec (compress : Nat → Nat → Nat) (d : Nat) (hd : 1 ≤ d)
    (t1 : Tree) (hdep : t1.depth_ = d) (htot : t1.total_size_ = 2 ^ d)
    (hlsi : t1.level_str_idxs_ = levelStrIdxs d)
    (P1 : ∀ l k, 1 ≤ l → l < d → k < 2 ^ (d - l) →
      t1.hstats_ (levelStart d l + k) = node_status.DIRTY →
      (AncD t1.hstats_ d l k ∨ l = d - 1))
    (P2 : ∀ l k, 1 ≤ l → l < d → k < 2 ^ (d - l) → ¬ AncD t1.hstats_ d l k →
      t1.hashes_ (levelStart d l + k) =
        compress (t1.hashes_ (levelStart d (l - 1) + 2 * k))
          (t1.hashes_ (levelStart d (l - 1) + 2 * k + 1)))
    (P0 : ∀ j, 2 ^ (d + 1) - 2 - 2 ≤ j → j < 2 ^ (d + 1) - 2 →
      t1.hstats_ j = node_status.DIRTY) :
    (∀ j, j < 2 ^ d →
      (calculate_root compress (build_hashes_from_leaves compress t1)).hashes_ j =
        t1.hashes_ j) ∧
    (∀ l k, 1 ≤ l → l < d → k < 2 ^ (d - l) →
      (calculate_root compress (build_hashes_from_leaves compress t1)).hashes_
          (levelStart d l + k) =
        compress
          ((calculate_root compress (build_hashes_from_leaves compress t1)).hashes_
            (levelStart d (l - 1) + 2 * k))
          ((calculate_root compress (build_hashes_from_leaves compress t1)).hashes_
            (levelStart d (l - 1) + 2 * k + 1))) ∧
    (calculate_root compress (build_hashes_from_leaves compress t1)).root_ =
      compress
        ((calculate_root compress (build_hashes_from_leaves compress t1)).hashes_
          (2 ^ (d + 1) - 2 - 2))
        ((calculate_root compress (build_hashes_from_leaves compress t1)).hashes_
          (2 ^ (d + 1) - 2 - 1)) ∧
    (∀ j, j < 2 ^ (d + 1) - 2 - 2 →
      (calculate_root compress (build_hashes_from_leaves compress t1)).hstats_ j =
        node_status.CLEAN) ∧
    (∀ j, 2 ^ (d + 1) - 2 - 2 ≤ j → j < 2 ^ (d + 1) - 2 →
      (calculate_root compress (build_hashes_from_leaves compress t1)).hstats_ j =
        node_status.DIRTY) := by
  have epow : 2 ^ (d + 1) = 2 * 2 ^ d := by rw [pow_succ]; ring
  have h2d : 2 ≤ 2 ^ d := by
    calc (2 : Nat) = 2 ^ 1 := by norm_num
    _ ≤ 2 ^ d := Nat.pow_le_pow_right (by omega) hd
  have epair : ((build_hashes_from_leaves compress t1).hashes_,
      (build_hashes_from_leaves compress t1).hstats_) =
      (List.range' (2 ^ d) (2 ^ d - 2)).foldl
        (buildStep compress (levelStrIdxs d)) (t1.hashes_, t1.hstats_) := by
    show (List.range' t1.total_size_ (2 * t1.total_size_ - 2 - t1.total_size_)).foldl
        (buildStep compress t1.level_str_idxs_) (t1.hashes_, t1.hstats_) = _
    rw [htot, hlsi, show 2 * 2 ^ d - 2 - 2 ^ d = 2 ^ d - 2 from by omega]
  have hfin : BuildInv compress d t1.hashes_ t1.hstats_ (2 ^ (d + 1) - 2)
      ((build_hashes_from_leaves compress t1).hashes_,
       (build_hashes_from_leaves compress t1).hstats_) := by
    rw [epair]
    have e2 : 2 ^ d + (2 ^ d - 2) = 2 ^ (d + 1) - 2 := by omega
    rw [← e2]
    apply foldl_range'_inv (BuildInv compress d t1.hashes_ t1.hstats_)
      (buildStep compress (levelStrIdxs d)) (2 ^ d - 2) (2 ^ d)
      (t1.hashes_, t1.hstats_)
    · refine ⟨fun j _ => rfl, fun j _ => rfl, ?_, ?_, ?_, fun j _ => rfl⟩
      · intro l k h1 h2 h3 h4
        exfalso
        have := levelStart_ge d h1 k
        omega
      · intro j hj
        exact ⟨fun h => ⟨h, by omega⟩, fun h => h.1⟩
      · intro l k h1 h2 h3
        have hge := levelStart_ge d (show 1 ≤ l + 1 by omega) (k / 2)
        constructor
        · intro h
          exact ⟨Or.inr h, by omega⟩
        · rintro ⟨h | h, _⟩
          · exfalso
            have := levelStart_ge d h1 k
            omega
          · exact h
    · intro m a hm1 hm2 hP
      have hd2 : 2 ≤ d := by
        by_contra hc
        have h1e : d = 1 := by omega
        rw [h1e] at hm1 hm2
        norm_num at hm1 hm2
        omega
      exact buildStep_inv compress d hd2 t1.hashes_ t1.hstats_ P1 m a hm1
        (by omega) hP
  obtain ⟨B1, B2, B3, B4, B5, B6⟩ := hfin
  dsimp only at B1 B2 B3 B4 B5 B6
  have h4top : 4 ≤ 2 ^ (d + 1) := by omega
  refine ⟨?_, ?_, ?_, ?_, ?_⟩
  · intro j hj
    exact B1 j hj
  · -- consistency of every internal node
    intro l k h1 h2 h3
    have hsucc := levelStart_succ d (show l ≤ d by omega)
    have hmono := levelStart_le_mono d (show l + 1 ≤ d by omega)
    rw [levelStart_d] at hmono
    have hflat : levelStart d l + k < 2 ^ (d + 1) - 2 := by omega
    by_cases hA : AncD t1.hstats_ d l k
    · exact (B3 l k h1 h2 h3 hflat).1 hA
    · have hnode := (B3 l k h1 h2 h3 hflat).2 hA
      have hp : 2 ^ (d - (l - 1)) = 2 * 2 ^ (d - l) := by
        rw [show d - (l - 1) = (d - l) + 1 from by omega, pow_succ]
        ring
      have hs1 : levelStart d l = levelStart d (l - 1) + 2 ^ (d - (l - 1)) := by
        have h := levelStart_succ d (show l - 1 ≤ d by omega)
        rw [show l - 1 + 1 = l from by omega] at h
        exact h
      have hchR : (build_hashes_from_leaves compress t1).hashes_
          (levelStart d (l - 1) + 2 * k) =
          t1.hashes_ (levelStart d (l - 1) + 2 * k) := by
        by_cases hl1 : l = 1
        · apply B1
          subst hl1
          have e0 : levelStart d (1 - 1) = 0 := by
            rw [show (1 : Nat) - 1 = 0 from rfl]
            exact levelStart_zero d
          have hpd : 2 ^ d = 2 * 2 ^ (d - 1) := by
            have e := pow_succ 2 (d - 1)
            rw [show d - 1 + 1 = d from by omega] at e
            omega
          omega
        · have hll : 1 ≤ l - 1 := by omega
          have hnA : ¬ AncD t1.hstats_ d (l - 1) (2 * k) := by
            intro hA2
            apply hA
            have h := (AncD_succ t1.hstats_ d (l - 1) k).mpr (Or.inl hA2)
            rw [show l - 1 + 1 = l from by omega] at h
            exact h
          exact (B3 (l - 1) (2 * k) hll (by omega) (by omega) (by omega)).2 hnA
      have hchL : (build_hashes_from_leaves compress t1).hashes_
          (levelStart d (l - 1) + 2 * k + 1) =
          t1.hashes_ (levelStart d (l - 1) + 2 * k + 1) := by
        by_cases hl1 : l = 1
        · apply B1
          subst hl1
          have e0 : levelStart d (1 - 1) = 0 := by
            rw [show (1 : Nat) - 1 = 0 from rfl]
            exact levelStart_zero d
          have hpd : 2 ^ d = 2 * 2 ^ (d - 1) := by
            have e := pow_succ 2 (d - 1)
            rw [show d - 1 + 1 = d from by omega] at e
            omega
          omega
        · have hll : 1 ≤ l - 1 := by omega
          have hnA : ¬ AncD t1.hstats_ d (l - 1) (2 * k + 1) := by
            intro hA2
            apply hA
            have h := (AncD_succ t1.hstats_ d (l - 1) k).mpr (Or.inr hA2)
            rw [show l - 1 + 1 = l from by omega] at h
            exact h
          have hB := (B3 (l - 1) (2 * k + 1) hll (by omega) (by omega) (by omega)).2 hnA
          rw [show levelStart d (l - 1) + (2 * k + 1) =
            levelStart d (l - 1) + 2 * k + 1 from by omega] at hB
          exact hB
      show (build_hashes_from_leaves compress t1).hashes_ (levelStart d l + k) = _
      rw [hnode, P2 l k h1 h2 h3 hA]
      rw [show (calculate_root compress (build_hashes_from_leaves compress
          t1)).hashes_ = (build_hashes_from_leaves compress t1).hashes_ from rfl]
      rw [hchR, hchL]
  · -- the cached root recombines the two nodes below the apex
    have hroot : (calculate_root compress
        (build_hashes_from_leaves compress t1)).root_ =
        compress ((build_hashes_from_leaves compress t1).hashes_
          (2 * t1.total_size_ - 2 - 2))
        ((build_hashes_from_leaves compress t1).hashes_
          (2 * t1.total_size_ - 2 - 1)) := rfl
    rw [hroot, htot, show 2 * 2 ^ d - 2 - 2 = 2 ^ (d + 1) - 2 - 2 from by omega,
      show 2 * 2 ^ d - 2 - 1 = 2 ^ (d + 1) - 2 - 1 from by omega]
    rfl
  · -- everything strictly below the two top nodes is clean after the pass
    intro j hj
    rcases Nat.lt_or_ge j (2 ^ d) with hjl | hjg
    · have hS : (build_hashes_from_leaves compress t1).hstats_ j =
          node_status.DIRTY ↔
          (t1.hstats_ j = node_status.DIRTY ∧
            2 ^ (d + 1) - 2 ≤ 2 ^ d + j / 2) := B4 j hjl
      refine status_eq_clean ?_
      show ¬ ((build_hashes_from_leaves compress t1).hstats_ j = node_status.DIRTY)
      rw [hS]
      rintro ⟨_, hb⟩
      omega
    · obtain ⟨l, k, h1, h2, h3, rfl⟩ := level_decomp d hjg (by omega)
      rcases Nat.lt_or_ge (l + 1) d with hlt | hge2
      · have hS : (build_hashes_from_leaves compress t1).hstats_
            (levelStart d l + k) = node_status.DIRTY ↔
            ((AncD t1.hstats_ d l k ∧
              levelStart d l + k < 2 ^ (d + 1) - 2) ∨
              t1.hstats_ (levelStart d l + k) = node_status.DIRTY) ∧
            2 ^ (d + 1) - 2 ≤ levelStart d (l + 1) + k / 2 := B5 l k h1 h2 h3
        refine status_eq_clean ?_
        show ¬ ((build_hashes_from_leaves compress t1).hstats_
          (levelStart d l + k) = node_status.DIRTY)
        rw [hS]
        rintro ⟨_, hb⟩
        have hsucc := levelStart_succ d (show l + 1 ≤ d by omega)
        have hmono := levelStart_le_mono d (show l + 1 + 1 ≤ d by omega)
        rw [levelStart_d] at hmono
        have hk2 : k / 2 < 2 ^ (d - (l + 1)) := by
          have hp : 2 ^ (d - l) = 2 * 2 ^ (d - (l + 1)) := by
            rw [show d - l = (d - (l + 1)) + 1 from by omega, pow_succ]
            ring
          omega
        omega
      · exfalso
        have hld : l = d - 1 := by omega
        have hlv := levelStart_pred d hd
        rw [hld] at hj
        omega
  · -- the two top nodes keep their dirty flag
    intro j hj1 hj2
    rcases Nat.lt_or_ge j (2 ^ d) with hjl | hjg
    · have hS : (build_hashes_from_leaves compress t1).hstats_ j =
          node_status.DIRTY ↔
          (t1.hstats_ j = node_status.DIRTY ∧
            2 ^ (d + 1) - 2 ≤ 2 ^ d + j / 2) := B4 j hjl
      show (build_hashes_from_leaves compress t1).hstats_ j = node_status.DIRTY
      rw [hS]
      exact ⟨P0 j hj1 hj2, by omega⟩
    · obtain ⟨l, k, h1, h2, h3, rfl⟩ := level_decomp d hjg hj2
      have hld : l = d - 1 := by
        by_contra hc
        have hmono := levelStart_le_mono d (show l + 1 ≤ d - 1 by omega)
        have hsucc := levelStart_succ d (show l ≤ d by omega)
        have hpred := levelStart_pred d hd
        omega
      have hS : (build_hashes_from_leaves compress t1).hstats_
          (levelStart d l + k) = node_status.DIRTY ↔
          ((AncD t1.hstats_ d l k ∧ levelStart d l + k < 2 ^ (d + 1) - 2) ∨
            t1.hstats_ (levelStart d l + k) = node_status.DIRTY) ∧
          2 ^ (d + 1) - 2 ≤ levelStart d (l + 1) + k / 2 := B5 l k h1 h2 h3
      show (build_hashes_from_leaves compress t1).hstats_
        (levelStart d l + k) = node_status.DIRTY
      rw [hS]
      refine ⟨Or.inr (P0 _ hj1 hj2), ?_⟩
      have : levelStart d (l + 1) = 2 ^ (d + 1) - 2 := by
        rw [show l + 1 = d from by omega]
        exact levelStart_d d
      omega

/-- The freshly constructed tree is well-formed, has the requested depth,
and stores the zero-leaf hash in every leaf slot. -/
theorem construct_spec (hashLeaf : leaf → Nat) (compress : Nat → Nat → Nat)
    (d : Nat) (hd : 1 ≤ d) :
    WF compress (construct hashLeaf compress d) ∧
    (construct hashLeaf compress d).depth_ = d ∧
    (∀ j, j < 2 ^ d →
      (construct hashLeaf compress d).hashes_ j = hashLeaf zeroLeaf) := by
  have hcon : construct hashLeaf compress d =
      calculate_root compress (build_hashes_from_leaves compress
        { depth_ := d, total_size_ := 2 ^ d, root_ := 0, leaves_ := [zeroLeaf]
          hashes_ := (List.range (2 ^ d)).foldl
            (fun h j => upd h j (hashLeaf zeroLeaf)) (fun _ => 0)
          level_str_idxs_ := levelStrIdxs d
          hstats_ := fun _ => node_status.DIRTY }) := rfl
  have hb := build_root_spec compress d hd
    { depth_ := d, total_size_ := 2 ^ d, root_ := 0, leaves_ := [zeroLeaf]
      hashes_ := (List.range (2 ^ d)).foldl
        (fun h j => upd h j (hashLeaf zeroLeaf)) (fun _ => 0)
      level_str_idxs_ := levelStrIdxs d
      hstats_ := fun _ => node_status.DIRTY }
    rfl rfl rfl
    (fun l k h1 h2 h3 _ => Or.inl (AncD_all (fun j _ => rfl) l k (by omega) h3))
    (fun l k h1 h2 h3 hnA =>
      absurd (AncD_all (fun j _ => rfl) l k (by omega) h3) hnA)
    (fun j _ _ => rfl)
  obtain ⟨R1, R2, R3, R4, R5⟩ := hb
  rw [hcon]
  refine ⟨⟨hd, rfl, rfl, R2, R3, R4, R5, ?_, ?_⟩, rfl, ?_⟩
  · exact ⟨[0], ⟨rfl, Nat.one_pos, rfl⟩, by simp⟩
  · show 1 ≤ 2 ^ d
    exact Nat.pow_pos (by omega)
  · intro j hj
    rw [R1 j hj]
    show ((List.range (2 ^ d)).foldl
      (fun h j => upd h j (hashLeaf zeroLeaf)) (fun _ => 0)) j = hashLeaf zeroLeaf
    rw [fill_eq, if_pos hj]

/-- The `update_element` scan terminates on every chain, either reporting a
duplicate or stopping at a chain node. -/
theorem scan_weak {leaves : List leaf} (v : Nat) :
    ∀ {is : List Nat} (i fuel : Nat), IsChain leaves i is →
      is.length ≤ fuel →
      scanLoop leaves v fuel i = some ScanResult.dup ∨
      ∃ q, q ∈ is ∧ scanLoop leaves v fuel i = some (ScanResult.insertAt q) := by
  intro is
  induction is with
  | nil => intro i fuel h; exact absurd h (by simp [IsChain])
  | cons j rest ih =>
    intro i fuel hch hfuel
    obtain ⟨fuel, rfl⟩ : ∃ f, fuel = f + 1 := by
      cases fuel with
      | zero => simp at hfuel
      | succ f => exact ⟨f, rfl⟩
    by_cases hdup : u64 (leaves.getD i zeroLeaf).nextValue = u64 v
    · left
      simp only [scanLoop]
      rw [if_pos hdup]
    · by_cases hstop : u64 v < u64 (leaves.getD i zeroLeaf).nextValue ∨
          (leaves.getD i zeroLeaf).nextValue = 0
      · right
        refine ⟨i, ?_, ?_⟩
        · rw [hch.head_eq]
          exact List.mem_cons_self _ _
        · simp only [scanLoop]
          rw [if_neg hdup, if_pos hstop]
      · cases rest with
        | nil =>
          obtain ⟨hij, hlen, hz⟩ := hch
          exact absurd (Or.inr hz) hstop
        | cons k rest2 =>
          obtain ⟨hij, hlen, hnz, hidx, hlink, hch2⟩ := hch
          simp only [scanLoop]
          rw [if_neg hdup, if_neg hstop, hidx]
          rcases ih k fuel hch2 (by
            simp only [List.length_cons] at hfuel ⊢
            omega) with h | ⟨q, hq, heq⟩
          · left
            exact h
          · right
            exact ⟨q, List.mem_cons_of_mem _ hq, heq⟩

/-- Splicing the value 0 after the predecessor `q` truncates the chain at
`q` (the scan treats `nextValue = 0` as the tail marker). -/
theorem chain_splice_zero {leaves : List leaf} {v cur : Nat}
    (hcur : cur = leaves.length) (hv0 : v = 0) :
    ∀ (as : List Nat) (q : Nat) (bs : List Nat) (i : Nat),
      IsChain leaves i (as ++ q :: bs) → (as ++ q :: bs).Nodup →
      IsChain (spliceLeaves leaves q v cur) i (as ++ [q]) := by
  intro as
  induction as with
  | nil =>
    intro q bs i hch hnd
    rw [List.nil_append] at hch hnd ⊢
    have hiq : i = q := hch.head_eq
    have hq : i < leaves.length := by
      have h := hch.head_eq
      exact h ▸ hch.mem_lt q (h ▸ List.mem_cons_self _ _)
    have hqlen : q < leaves.length := hiq ▸ hq
    have hgq := spliceLeaves_getD_q leaves q v cur hqlen
    refine ⟨hiq, by rw [spliceLeaves_length]; omega, ?_⟩
    rw [hiq, hgq]
    show v = 0
    exact hv0
  | cons a as2 ih =>
    intro q bs i hch hnd
    rw [List.cons_append] at hch hnd ⊢
    have haq : a ∉ as2 ++ q :: bs := (List.nodup_cons.mp hnd).1
    have hnd2 : (as2 ++ q :: bs).Nodup := (List.nodup_cons.mp hnd).2
    have haq2 : a ≠ q := fun h =>
      haq (by rw [h]; exact List.mem_append_right _ (List.mem_cons_self _ _))
    cases as2 with
    | nil =>
      rw [List.nil_append] at hch hnd2 ⊢
      obtain ⟨hia, hlen, hnz, hidx, hlink, hch2⟩ := hch
      have hiq2 : i ≠ q := by rw [hia]; exact haq2
      have hqlen : q < leaves.length := hch2.mem_lt q (List.mem_cons_self _ _)
      refine ⟨hia, by rw [spliceLeaves_length]; omega, ?_, ?_, ?_, ?_⟩
      · rw [spliceLeaves_getD_ne _ _ _ _ _ hlen hiq2]
        exact hnz
      · rw [spliceLeaves_getD_ne _ _ _ _ _ hlen hiq2]
        exact hidx
      · rw [spliceLeaves_getD_ne _ _ _ _ _ hlen hiq2,
          spliceLeaves_value _ _ _ _ _ hqlen]
        exact hlink
      · have h3 := ih q bs q hch2 hnd2
        rw [List.nil_append] at h3
        exact h3
    | cons a2 as3 =>
      rw [List.cons_append] at hch hnd2 ⊢
      obtain ⟨hia, hlen, hnz, hidx, hlink, hch2⟩ := hch
      have hiq2 : i ≠ q := by rw [hia]; exact haq2
      have ha2len : a2 < leaves.length := hch2.mem_lt a2 (List.mem_cons_self _ _)
      refine ⟨hia, by rw [spliceLeaves_length]; omega, ?_, ?_, ?_, ?_⟩
      · rw [spliceLeaves_getD_ne _ _ _ _ _ hlen hiq2]
        exact hnz
      · rw [spliceLeaves_getD_ne _ _ _ _ _ hlen hiq2]
        exact hidx
      · rw [spliceLeaves_getD_ne _ _ _ _ _ hlen hiq2,
          spliceLeaves_value _ _ _ _ _ ha2len]
        exact hlink
      · have h3 := ih q bs a2 (by rw [List.cons_append]; exact hch2)
          (by rw [List.cons_append]; exact hnd2)
        rw [List.cons_append] at h3
        exact h3

/-- The insert branch of `update_element` (splice plus two leaf-hash writes
plus two dirty marks plus rebuild plus root recomputation) preserves
well-formedness, for arbitrary written hash values. -/
theorem update_insert_WF (compress : Nat → Nat → Nat) (t t1 : Tree)
    (v q za zb : Nat) (is : List Nat)
    (hwf : WF compress t) (hch : IsChain t.leaves_ 0 is) (hnd : is.Nodup)
    (hqis : q ∈ is) (hroom : t.leaves_.length < t.total_size_)
    (ht1 : t1 = { t with
        leaves_ := spliceLeaves t.leaves_ q v t.leaves_.length
        hashes_ := upd (upd t.hashes_ t.leaves_.length za) q zb
        hstats_ := upd (upd t.hstats_ q node_status.DIRTY) t.leaves_.length
          node_status.DIRTY }) :
    WF compress (calculate_root compress (build_hashes_from_leaves compress t1)) ∧
    (calculate_root compress (build_hashes_from_leaves compress t1)).depth_ =
      t.depth_ := by
  have h1dep : t1.depth_ = t.depth_ := by rw [ht1]
  have h1tot : t1.total_size_ = t.total_size_ := by rw [ht1]
  have h1lsi : t1.level_str_idxs_ = t.level_str_idxs_ := by rw [ht1]
  have h1hash : t1.hashes_ = upd (upd t.hashes_ t.leaves_.length za) q zb := by
    rw [ht1]
  have h1stat : t1.hstats_ =
      upd (upd t.hstats_ q node_status.DIRTY) t.leaves_.length
        node_status.DIRTY := by
    rw [ht1]
  have h1lv : t1.leaves_ = spliceLeaves t.leaves_ q v t.leaves_.length := by
    rw [ht1]
  have hd1 : 1 ≤ t.depth_ := hwf.depth_pos
  have hqlen : q < t.leaves_.length := hch.mem_lt q hqis
  have hcur2 : t.leaves_.length < 2 ^ t.depth_ := by
    have := hwf.total_eq
    omega
  have hq2 : q < 2 ^ t.depth_ := by omega
  have hpred := levelStart_pred t.depth_ hd1
  have epow : 2 ^ (t.depth_ + 1) = 2 * 2 ^ t.depth_ := by rw [pow_succ]; ring
  -- dirty flags written at the two leaf slots
  have hsq : t1.hstats_ q = node_status.DIRTY := by
    rw [h1stat, upd_ne _ _ _ _ (by omega), upd_self]
  have hscur : t1.hstats_ t.leaves_.length = node_status.DIRTY := by
    rw [h1stat, upd_self]
  have hs_ne : ∀ j, j ≠ q → j ≠ t.leaves_.length → t1.hstats_ j = t.hstats_ j := by
    intro j hjq hjc
    rw [h1stat, upd_ne _ _ _ _ hjc, upd_ne _ _ _ _ hjq]
  have hh_ne : ∀ j, j ≠ q → j ≠ t.leaves_.length → t1.hashes_ j = t.hashes_ j := by
    intro j hjq hjc
    rw [h1hash, upd_ne _ _ _ _ hjq, upd_ne _ _ _ _ hjc]
  have hb := build_root_spec compress t.depth_ hd1 t1 h1dep
    (h1tot.trans hwf.total_eq) (h1lsi.trans hwf.lsi_eq)
    (by
      -- P1: internal dirty flags are inherited, hence confined to the top
      intro l k h1 h2 h3 hdirty
      have hpos := levelStart_ge t.depth_ h1 k
      rw [hs_ne (levelStart t.depth_ l + k) (by omega) (by omega)] at hdirty
      by_cases htop : levelStart t.depth_ l + k < 2 ^ (t.depth_ + 1) - 2 - 2
      · rw [hwf.clean_low _ htop] at hdirty
        exact absurd hdirty (by decide)
      · right
        by_contra hc
        have hmono := levelStart_le_mono t.depth_ (show l + 1 ≤ t.depth_ - 1 by omega)
        have hsucc := levelStart_succ t.depth_ (show l ≤ t.depth_ by omega)
        omega
      -- P2: nodes with no dirty leaf below keep consistent children
    )
    (by
      intro l k h1 h2 h3 hnA
      have hpos := levelStart_ge t.depth_ h1 k
      have hnode := hh_ne (levelStart t.depth_ l + k) (by omega) (by omega)
      rcases eq_or_lt_of_le h1 with heq | hgt
      · -- level 1: the children are leaves, and neither was just rewritten
        have hqk : q / 2 ≠ k := by
          intro h
          exact hnA ⟨q, hq2, hsq, by rw [← heq, pow_one]; exact h⟩
        have hck : t.leaves_.length / 2 ≠ k := by
          intro h
          exact hnA ⟨t.leaves_.length, hcur2, hscur, by
            rw [← heq, pow_one]; exact h⟩
        have e0 : levelStart t.depth_ (l - 1) = 0 := by
          rw [show l - 1 = 0 from by omega]
          exact levelStart_zero t.depth_
        have hchR := hh_ne (levelStart t.depth_ (l - 1) + 2 * k)
          (by omega) (by omega)
        have hchL := hh_ne (levelStart t.depth_ (l - 1) + 2 * k + 1)
          (by omega) (by omega)
        rw [hnode, hchR, hchL]
        exact hwf.consistent l k h1 h2 h3
      · -- level 2 and above: the children are internal nodes
        have hchR := hh_ne (levelStart t.depth_ (l - 1) + 2 * k)
          (by have := levelStart_ge t.depth_ (show 1 ≤ l - 1 by omega) (2 * k); omega)
          (by have := levelStart_ge t.depth_ (show 1 ≤ l - 1 by omega) (2 * k); omega)
        have hchL := hh_ne (levelStart t.depth_ (l - 1) + 2 * k + 1)
          (by have := levelStart_ge t.depth_ (show 1 ≤ l - 1 by omega) (2 * k); omega)
          (by have := levelStart_ge t.depth_ (show 1 ≤ l - 1 by omega) (2 * k); omega)
        rw [hnode, hchR, hchL]
        exact hwf.consistent l k h1 h2 h3)
    (by
      intro j hj1 hj2
      rw [h1stat]
      by_cases hjc : j = t.leaves_.length
      · rw [hjc, upd_self]
      · rw [upd_ne _ _ _ _ hjc]
        by_cases hjq : j = q
        · rw [hjq, upd_self]
        · rw [upd_ne _ _ _ _ hjq]
          exact hwf.dirty_top j hj1 hj2)
  obtain ⟨R1, R2, R3, R4, R5⟩ := hb
  rw [← h1dep] at R2 R3 R4 R5
  refine ⟨⟨?_, ?_, ?_, R2, R3, R4, R5, ?_, ?_⟩, ?_⟩
  · show 1 ≤ t1.depth_
    rw [h1dep]
    exact hwf.depth_pos
  · show t1.total_size_ = 2 ^ t1.depth_
    rw [h1tot, h1dep]
    exact hwf.total_eq
  · show t1.level_str_idxs_ = levelStrIdxs t1.depth_
    rw [h1lsi, h1dep]
    exact hwf.lsi_eq
  · -- the spliced chain
    show ∃ is2, IsChain t1.leaves_ 0 is2 ∧ is2.Nodup
    rw [h1lv]
    obtain ⟨as, bs, hsplit⟩ := List.append_of_mem hqis
    subst hsplit
    by_cases hv0 : v = 0
    · refine ⟨as ++ [q], chain_splice_zero rfl hv0 as q bs 0 hch hnd, ?_⟩
      have hsub : (as ++ [q]).Sublist (as ++ q :: bs) :=
        List.Sublist.append_left ((List.nil_sublist bs).cons₂ q) as
      exact List.Nodup.sublist hsub hnd
    · refine ⟨as ++ q :: t.leaves_.length :: bs,
        chain_splice rfl (Nat.pos_of_ne_zero hv0) as q bs 0 hch hnd, ?_⟩
      have hcurnot : t.leaves_.length ∉ as ++ q :: bs := by
        intro hmem
        have := hch.mem_lt _ hmem
        omega
      have hp : (as ++ q :: t.leaves_.length :: bs).Perm
          (t.leaves_.length :: (as ++ q :: bs)) := by
        have h1 := @List.perm_middle Nat t.leaves_.length (as ++ [q]) bs
        simp only [List.append_assoc, List.singleton_append, List.cons_append,
          List.nil_append] at h1
        exact h1
      exact (List.Perm.nodup_iff hp).mpr (List.nodup_cons.mpr ⟨hcurnot, hnd⟩)
  · show t1.leaves_.length ≤ t1.total_size_
    rw [h1lv, h1tot, spliceLeaves_length]
    omega
  · show t1.depth_ = t.depth_
    exact h1dep

/-- Any successful `update_element` call preserves well-formedness and the
tree's shape. -/
theorem update_element_preserves (hashLeaf : leaf → Nat)
    (compress : Nat → Nat → Nat) (t : Tree) (v r : Nat) (t' : Tree)
    (h : update_element hashLeaf compress t v = some (r, t'))
    (hwf : WF compress t) : WF compress t' ∧ t'.depth_ = t.depth_ := by
  rcases le_or_lt t.total_size_ t.leaves_.length with hfull | hroom
  · rw [update_element_full hashLeaf compress t v hfull] at h
    have hp := Option.some.inj h
    injection hp with h1 h2
    subst h2
    exact ⟨hwf, rfl⟩
  · obtain ⟨is, hch, hnd⟩ := hwf.chain
    rcases scan_weak v 0 t.leaves_.length hch (chain_length_le hch hnd) with
      hdup | ⟨q, hqis, hscan⟩
    · rw [update_element_eq_dup hashLeaf compress t v hroom hdup] at h
      have hp := Option.some.inj h
      injection hp with h1 h2
      subst h2
      exact ⟨hwf, rfl⟩
    · rw [update_element_eq_insert hashLeaf compress t v q hroom hscan] at h
      have hp := Option.some.inj h
      injection hp with h1 h2
      subst h2
      exact update_insert_WF compress t _ v q _ _ is hwf hch hnd hqis hroom rfl

/-- Folding `update_element` over any value list preserves well-formedness
and the tree's shape. -/
theorem insertAll_WF (hashLeaf : leaf → Nat) (compress : Nat → Nat → Nat) :
    ∀ (vs : List Nat) (t0 t : Tree),
      insertAll hashLeaf compress t0 vs = some t → WF compress t0 →
      WF compress t ∧ t.depth_ = t0.depth_ := by
  intro vs
  induction vs with
  | nil =>
    intro t0 t h hwf
    simp only [insertAll, Option.some.injEq] at h
    subst h
    exact ⟨hwf, rfl⟩
  | cons v vs ih =>
    intro t0 t h hwf
    rw [insertAll] at h
    cases hu : update_element hashLeaf compress t0 v with
    | none => rw [hu] at h; cases h
    | some p =>
      rw [hu] at h
      obtain ⟨r, t1⟩ := p
      obtain ⟨hwf1, hdep1⟩ :=
        update_element_preserves hashLeaf compress t0 v r t1 hu hwf
      obtain ⟨hwf2, hdep2⟩ := ih t1 t h hwf1
      exact ⟨hwf2, hdep2.trans hdep1⟩

theorem getD_map_pairs (f : Nat → Nat × Nat) (n l : Nat) (hl : l < n) :
    ((List.range n).map f).getD l (0, 0) = f l := by
  rw [List.getD_eq_getElem?_getD, List.getElem?_map, List.getElem?_range hl]
  rfl

/-- Closed form of the hash path: the pair emitted for level `l` sits at
flat position `levelStart d l + i / 2^l` (the source's
`idx = level_str_idxs_[1] + idx / 2` recurrence computes exactly the flat
parent). -/
theorem get_hash_path_spec (t : Tree) (d : Nat) (hd : 1 ≤ d)
    (hdep : t.depth_ = d) (hlsi : t.level_str_idxs_ = levelStrIdxs d) (i : Nat) :
    (get_hash_path t i).1 =
      (List.range d).map
        (fun l => pathPair t.hashes_ (levelStart d l + i / 2 ^ l)) := by
  have hbase : [pathPair t.hashes_ i] =
      (List.range 1).map
        (fun l => pathPair t.hashes_ (levelStart d l + i / 2 ^ l)) ∧
      i = levelStart d (1 - 1) + i / 2 ^ (1 - 1) := by
    constructor
    · have e1 : List.range 1 = [0] := rfl
      rw [e1]
      show [pathPair t.hashes_ i] =
        [pathPair t.hashes_ (levelStart d 0 + i / 2 ^ 0)]
      rw [levelStart_zero, pow_zero, Nat.div_one, Nat.zero_add]
    · show i = levelStart d 0 + i / 2 ^ 0
      rw [levelStart_zero, pow_zero, Nat.div_one, Nat.zero_add]
  have hstep : ∀ (m : Nat) (acc : List (Nat × Nat) × Nat), 1 ≤ m →
      m < 1 + (d - 1) →
      (acc.1 = (List.range m).map
          (fun l => pathPair t.hashes_ (levelStart d l + i / 2 ^ l)) ∧
        acc.2 = levelStart d (m - 1) + i / 2 ^ (m - 1)) →
      ((acc.1 ++ [pathPair t.hashes_ (t.level_str_idxs_.getD 1 0 + acc.2 / 2)] :
          List (Nat × Nat)) =
        (List.range (m + 1)).map
          (fun l => pathPair t.hashes_ (levelStart d l + i / 2 ^ l)) ∧
        t.level_str_idxs_.getD 1 0 + acc.2 / 2 =
          levelStart d (m + 1 - 1) + i / 2 ^ (m + 1 - 1)) := by
    intro m acc hm1 hm2 hP
    obtain ⟨ha1, ha2⟩ := hP
    have hd2 : 2 ≤ d := by omega
    have hgetd : t.level_str_idxs_.getD 1 0 = 2 ^ d := by
      rw [hlsi, levelStrIdxs_getD d (by omega) (show 1 < d by omega),
        levelStart_one]
    have hidx : t.level_str_idxs_.getD 1 0 + acc.2 / 2 =
        levelStart d m + i / 2 ^ m := by
      rw [hgetd, ha2]
      have hp := par_levelStart d (show m - 1 ≤ d by omega) (i / 2 ^ (m - 1))
      rw [show m - 1 + 1 = m from by omega] at hp
      rw [hp, Nat.div_div_eq_div_mul, ← pow_succ,
        show m - 1 + 1 = m from by omega]
    constructor
    · rw [List.range_succ, List.map_append, ← ha1, hidx]
      rfl
    · rw [hidx, Nat.add_sub_cancel]
  have key := foldl_range'_inv
    (fun m acc => acc.1 = (List.range m).map
        (fun l => pathPair t.hashes_ (levelStart d l + i / 2 ^ l)) ∧
      acc.2 = levelStart d (m - 1) + i / 2 ^ (m - 1))
    (fun (acc : List (Nat × Nat) × Nat) _ =>
      (acc.1 ++ [pathPair t.hashes_ (t.level_str_idxs_.getD 1 0 + acc.2 / 2)],
        t.level_str_idxs_.getD 1 0 + acc.2 / 2))
    (d - 1) 1 ([pathPair t.hashes_ i], i) hbase hstep
  rw [show 1 + (d - 1) = d from by omega] at key
  simp only [get_hash_path]
  rw [hdep]
  exact key.1

/-- Recompressing the sibling pair at a flat position `x` compresses the two
siblings `2*(x/2)` and `2*(x/2)+1` in order. -/
theorem pathPair_compress (compress : Nat → Nat → Nat) (h : Nat → Nat)
    (x : Nat) :
    compress (pathPair h x).1 (pathPair h x).2 =
      compress (h (2 * (x / 2))) (h (2 * (x / 2) + 1)) := by
  unfold pathPair
  by_cases hx : x % 2 = 1
  · rw [if_pos hx]
    dsimp only
    congr 1
    · congr 1
      omega
    · congr 1
      omega
  · rw [if_neg hx]
    dsimp only
    congr 1
    · congr 1
      omega
    · congr 1
      omega

theorem pathPair_mem (h : Nat → Nat) (x : Nat) :
    h x = (pathPair h x).1 ∨ h x = (pathPair h x).2 := by
  unfold pathPair
  by_cases hx : x % 2 = 1
  · rw [if_pos hx]
    right
    rfl
  · rw [if_neg hx]
    left
    rfl

/-- C7: on a tree of depth 3 (`total_size = 8`), inserting 30, 10, 20, 50 in
that order yields exactly the leaf pre-images
`0:{0,2,10}, 1:{30,4,50}, 2:{10,3,20}, 3:{20,1,30}, 4:{50,0,0}` with
occupied count 5 (for every choice of the opaque hash primitives, since the
leaf table does not depend on them). -/
theorem C7_concrete_scenario (hashLeaf : leaf → Nat) (compress : Nat → Nat → Nat) :
    (insertAll hashLeaf compress (construct hashLeaf compress 3)
        [30, 10, 20, 50]).map Tree.leaves_ =
      some [⟨0, 2, 10⟩, ⟨30, 4, 50⟩, ⟨10, 3, 20⟩, ⟨20, 1, 30⟩, ⟨50, 0, 0⟩] ∧
    (insertAll hashLeaf compress (construct hashLeaf compress 3)
        [30, 10, 20, 50]).map (fun t => t.leaves_.length) = some 5 :=
  ⟨rfl, rfl⟩

/-- C8: `get_hash_path` mutates no tree state: the stored hash sequence, the
leaf pre-images, the freshness flags, the occupied count and the cached root
are all unchanged by the call (the source function performs no writes to any
member). -/
theorem C8_get_hash_path_pure (t : Tree) (idx : Nat) :
    (get_hash_path t idx).2.hashes_ = t.hashes_ ∧
    (get_hash_path t idx).2.leaves_ = t.leaves_ ∧
    (get_hash_path t idx).2.hstats_ = t.hstats_ ∧
    (get_hash_path t idx).2.leaves_.length = t.leaves_.length ∧
    (get_hash_path t idx).2.root_ = t.root_ ∧
    (get_hash_path t idx).2 = t :=
  ⟨rfl, rfl, rfl, rfl, rfl, rfl⟩

/-- C3 (code divergence): on a fresh depth-2 tree, inserting the non-zero,
absent value 30 with room to spare makes `update_element` return the `fr`
value 0 even though the tree's new root is non-zero: the function's
`return 0;` never returns the new root. -/
theorem C3_returns_zero_not_new_root :
    update_element cHash cCompress (construct cHash cCompress 2) 30 =
      some (0, ((update_element cHash cCompress (construct cHash cCompress 2) 30).getD
        (0, construct cHash cCompress 2)).2) ∧
    ((update_element cHash cCompress (construct cHash cCompress 2) 30).getD
        (0, construct cHash cCompress 2)).2.root_ ≠ 0 :=
  ⟨rfl, by decide⟩

/-- C9 (code divergence): `get_hash_path` performs no range check: queried at
index 4 = `total_size` on a depth-2 tree (an out-of-range index), it returns
a full depth-length path (built from positions outside the leaf level)
instead of rejecting the query. -/
theorem C9_no_out_of_range_rejection (hashLeaf : leaf → Nat)
    (compress : Nat → Nat → Nat) :
    ((get_hash_path (construct hashLeaf compress 2) 4).1).length = 2 :=
  rfl

/-- C1 counterexample: the sequence `[1, 2^64 + 1]` consists of distinct
non-zero values and fits in a depth-2 tree, yet after inserting both, the
list read from leaf 0 yields only `[1]`: the `(uint64_t)` comparison makes
the second value collide with the first, so the yielded sequence is not the
multiset of inserted values. -/
theorem C1_counterexample :
    ([1, 2 ^ 64 + 1] : List Nat).Nodup ∧ (0 : Nat) ∉ [1, 2 ^ 64 + 1] ∧
    ([1, 2 ^ 64 + 1] : List Nat).length + 1 ≤ 2 ^ 2 ∧
    (insertAll cHash cCompress (construct cHash cCompress 2) [1, 2 ^ 64 + 1]).map
      (fun t => chainVals t.leaves_ t.leaves_.length 0) = some [1] ∧
    ¬ ([1] : List Nat).Perm [1, 2 ^ 64 + 1] := by
  refine ⟨by decide, by decide, by decide, by decide, by decide⟩

/-- C4 counterexample: inserting the value 0 into a depth-2 tree that
already holds the value 5 is not a no-op: the leaf count grows from 2 to 3
and a leaf `{0,1,5}` is created (0 is only rejected on a tree with no
insertions); moreover a genuine duplicate insertion (5 again) returns the
`fr` value 0, not the unchanged root, which is non-zero. -/
theorem C4_counterexample :
    (insertAll cHash cCompress (construct cHash cCompress 2) [5]).map
      (fun t => t.leaves_.length) = some 2 ∧
    (insertAll cHash cCompress (construct cHash cCompress 2) [5, 0]).map
      Tree.leaves_ = some [⟨0, 2, 0⟩, ⟨5, 0, 0⟩, ⟨0, 1, 5⟩] ∧
    update_element cHash cCompress tree5 5 = some (0, tree5) ∧
    tree5.root_ ≠ 0 := by
  refine ⟨by decide, by decide, rfl, by decide⟩

/-- C10 counterexample: the states `treeA64` and `treeB64` agree on every
`nextIndex` field and on the low 64 bits of every `value` and `nextValue`
field, yet inserting the candidate 3 splices it at different predecessors
(the exact `nextValue == 0` tail test distinguishes the stored field
elements `2^64` and `0`), so the insertion point does not depend only on
the low 64 bits of the stored `nextValue` fields. -/
theorem C10_counterexample :
    treeA64.leaves_.map (fun lf => (u64 lf.value, lf.nextIndex, u64 lf.nextValue)) =
      treeB64.leaves_.map (fun lf => (u64 lf.value, lf.nextIndex, u64 lf.nextValue)) ∧
    (update_element cHash cCompress treeA64 3).map (fun p => p.2.leaves_) =
      some [⟨0, 1, 2 ^ 64⟩, ⟨2 ^ 64, 2, 3⟩, ⟨3, 0, 0⟩] ∧
    (update_element cHash cCompress treeB64 3).map (fun p => p.2.leaves_) =
      some [⟨0, 2, 3⟩, ⟨0, 0, 0⟩, ⟨3, 1, 0⟩] ∧
    (update_element cHash cCompress treeA64 3).map (fun p => p.2.leaves_) ≠
      (update_element cHash cCompress treeB64 3).map (fun p => p.2.leaves_) := by
  refine ⟨by decide, by decide, by decide, by decide⟩

/-- Below depth 31 the constructor's table loop never shifts by 31 or
more, so the faithful fallible model agrees with the idealized power
table. -/
theorem levelStrIdxsC_eq (d : Nat) (hd : d ≤ 30) :
    levelStrIdxsC d = some (levelStrIdxs d) := by
  have key : ∀ (L : List Nat) (ls : List Nat),
      L.foldl
        (fun ols i =>
          match ols, shl1_int (d - (i - 1)) with
          | some ls2, some v => some (ls2 ++ [ls2.getD (i - 1) 0 + v])
          | _, _ => none)
        (some ls) =
      some (L.foldl
        (fun ls2 i => ls2 ++ [ls2.getD (i - 1) 0 + 2 ^ (d - (i - 1))]) ls) := by
    intro L
    induction L with
    | nil => intro ls; rfl
    | cons a L2 ih =>
      intro ls
      simp only [List.foldl_cons]
      have hs : shl1_int (d - (a - 1)) = some (2 ^ (d - (a - 1))) := by
        unfold shl1_int
        rw [if_pos (by omega)]
      rw [hs]
      exact ih (ls ++ [ls.getD (a - 1) 0 + 2 ^ (d - (a - 1))])
  exact key (List.range' 1 (d - 1)) [0]

/-- C6 (amended): for every depth in `[1, 30]`, the constructor's
level-offset table — built with the 32-bit `int` shift
`1 << (depth_ - (i - 1))`, whose every shift count then stays below 31 —
is exactly the idealized power table, and the root of a freshly
constructed tree is the iterated self-compression of the zero-leaf hash:
with `h_0 = hash({0,0,0})` and `h_{l+1} = compress(h_l, h_l)`, the
constructed `root_` equals `h_depth`, for every choice of the opaque hash
primitives.  (The original range `[1, 32]` fails: at depths 31 and 32 the
first loop iteration shifts a 32-bit `int` by 31 resp. 32, which
overflows, so `level_str_idxs_` is corrupted and the program does not
compute the empty-tree constant there.) -/
theorem C6_empty_root (hashLeaf : leaf → Nat) (compress : Nat → Nat → Nat)
    (d : Nat) (hd : 1 ≤ d) (hd30 : d ≤ 30) :
    levelStrIdxsC d = some (levelStrIdxs d) ∧
    (construct hashLeaf compress d).root_ =
      (fun h => compress h h)^[d] (hashLeaf zeroLeaf) := by
  refine ⟨levelStrIdxsC_eq d hd30, ?_⟩
  obtain ⟨hwf, hdep, hleaf⟩ := construct_spec hashLeaf compress d hd
  have hlevel : ∀ l, l ≤ d - 1 → ∀ k, k < 2 ^ (d - l) →
      (construct hashLeaf compress d).hashes_ (levelStart d l + k) =
        (fun h => compress h h)^[l] (hashLeaf zeroLeaf) := by
    intro l
    induction l with
    | zero =>
      intro _ k hk
      rw [levelStart_zero, Nat.zero_add, Function.iterate_zero_apply]
      apply hleaf
      rw [Nat.sub_zero] at hk
      exact hk
    | succ l ih =>
      intro hl k hk
      have hcons := hwf.consistent (l + 1) k
      rw [hdep] at hcons
      have hc := hcons (by omega) (by omega) hk
      rw [Nat.add_sub_cancel] at hc
      rw [hc]
      have hp : 2 ^ (d - l) = 2 * 2 ^ (d - (l + 1)) := by
        rw [show d - l = (d - (l + 1)) + 1 from by omega, pow_succ]
        ring
      have hihR := ih (by omega) (2 * k) (by omega)
      have hihL := ih (by omega) (2 * k + 1) (by omega)
      rw [show levelStart d l + (2 * k + 1) =
        levelStart d l + 2 * k + 1 from by omega] at hihL
      rw [hihR, hihL, Function.iterate_succ_apply']
  have hroot := hwf.root_eq
  rw [hdep] at hroot
  rw [hroot]
  have hpred := levelStart_pred d hd
  have epow : 2 ^ (d + 1) = 2 * 2 ^ d := by rw [pow_succ]; ring
  have h2d : 2 ≤ 2 ^ d := by
    calc (2 : Nat) = 2 ^ 1 := by norm_num
    _ ≤ 2 ^ d := Nat.pow_le_pow_right (by omega) hd
  have hk2 : (1 : Nat) < 2 ^ (d - (d - 1)) := by
    rw [show d - (d - 1) = 1 from by omega, pow_one]
    omega
  have hA := hlevel (d - 1) (by omega) 0 (by omega)
  have hB := hlevel (d - 1) (by omega) 1 hk2
  rw [Nat.add_zero] at hA
  rw [show 2 ^ (d + 1) - 2 - 2 = levelStart d (d - 1) from by omega,
    show 2 ^ (d + 1) - 2 - 1 = levelStart d (d - 1) + 1 from by omega]
  rw [hA, hB]
  have e := Function.iterate_succ_apply' (fun h => compress h h) (d - 1)
    (hashLeaf zeroLeaf)
  rw [show (d - 1).succ = d from by omega] at e
  rw [e]

/-- C6 witness: at depth 1 with the concrete primitives, the hypotheses
hold, the faithful table agrees with the idealized one, and the
constructed root is the once-iterated compression. -/
theorem C6_witness :
    ((1 : Nat) ≤ 1 ∧ (1 : Nat) ≤ 30) ∧
    (levelStrIdxsC 1 = some (levelStrIdxs 1) ∧
      (construct cHash cCompress 1).root_ =
        (fun h => cCompress h h)^[1] (cHash zeroLeaf)) :=
  ⟨⟨by decide, by decide⟩,
    C6_empty_root cHash cCompress 1 (by decide) (by decide)⟩

/-- C2: on any tree reached from a fresh construction by a sequence of
`update_element` calls, for every occupied leaf index `i`, `get_hash_path`
returns exactly `depth_` sibling pairs, leaf level first; the leaf's own
stored hash is one of the two elements of the first pair; recompressing any
pair yields an element of the next pair; recompressing the last pair yields
the cached root `root_`. -/
theorem C2_hash_path_root (hashLeaf : leaf → Nat) (compress : Nat → Nat → Nat)
    (d : Nat) (hd : 1 ≤ d) (hd32 : d ≤ 32) (vs : List Nat) (t : Tree)
    (ht : insertAll hashLeaf compress (construct hashLeaf compress d) vs =
      some t)
    (i : Nat) (hi : i < t.leaves_.length) :
    (get_hash_path t i).1.length = t.depth_ ∧
    (t.hashes_ i = ((get_hash_path t i).1.getD 0 (0, 0)).1 ∨
     t.hashes_ i = ((get_hash_path t i).1.getD 0 (0, 0)).2) ∧
    (∀ l, l + 1 < t.depth_ →
      compress ((get_hash_path t i).1.getD l (0, 0)).1
          ((get_hash_path t i).1.getD l (0, 0)).2 =
        ((get_hash_path t i).1.getD (l + 1) (0, 0)).1 ∨
      compress ((get_hash_path t i).1.getD l (0, 0)).1
          ((get_hash_path t i).1.getD l (0, 0)).2 =
        ((get_hash_path t i).1.getD (l + 1) (0, 0)).2) ∧
    compress ((get_hash_path t i).1.getD (t.depth_ - 1) (0, 0)).1
        ((get_hash_path t i).1.getD (t.depth_ - 1) (0, 0)).2 = t.root_ := by
  obtain ⟨hwfc, hdepc, _⟩ := construct_spec hashLeaf compress d hd
  obtain ⟨hwf, hdept⟩ := insertAll_WF hashLeaf compress vs _ t ht hwfc
  have hdep : t.depth_ = d := hdept.trans hdepc
  have hlsi : t.level_str_idxs_ = levelStrIdxs d := by
    have h := hwf.lsi_eq
    rw [hdep] at h
    exact h
  have htot : t.total_size_ = 2 ^ d := by
    have h := hwf.total_eq
    rw [hdep] at h
    exact h
  have hi2 : i < 2 ^ d := by
    have h := hwf.occ_le
    omega
  have hcons : ∀ l k, 1 ≤ l → l < d → k < 2 ^ (d - l) →
      t.hashes_ (levelStart d l + k) =
        compress (t.hashes_ (levelStart d (l - 1) + 2 * k))
          (t.hashes_ (levelStart d (l - 1) + 2 * k + 1)) := by
    intro l k h1 h2 h3
    have h := hwf.consistent l k
    rw [hdep] at h
    exact h h1 h2 h3
  have hspec := get_hash_path_spec t d hd hdep hlsi i
  have hget : ∀ l, l < d → (get_hash_path t i).1.getD l (0, 0) =
      pathPair t.hashes_ (levelStart d l + i / 2 ^ l) := by
    intro l hl
    rw [hspec]
    exact getD_map_pairs _ _ _ hl
  have e0 : levelStart d 0 + i / 2 ^ 0 = i := by
    rw [levelStart_zero, pow_zero, Nat.div_one, Nat.zero_add]
  refine ⟨?_, ?_, ?_, ?_⟩
  · rw [hspec, hdep]
    simp
  · rw [hget 0 (by omega), e0]
    exact pathPair_mem t.hashes_ i
  · intro l hl
    rw [hdep] at hl
    have hmid : compress ((get_hash_path t i).1.getD l (0, 0)).1
        ((get_hash_path t i).1.getD l (0, 0)).2 =
        t.hashes_ (levelStart d (l + 1) + i / 2 ^ (l + 1)) := by
      rw [hget l (by omega),
        pathPair_compress compress t.hashes_ (levelStart d l + i / 2 ^ l)]
      have hx : 2 * ((levelStart d l + i / 2 ^ l) / 2) =
          levelStart d l + 2 * (i / 2 ^ l / 2) := by
        have he := levelStart_even d (show l ≤ d by omega)
        omega
      have hdd : i / 2 ^ l / 2 = i / 2 ^ (l + 1) := by
        rw [Nat.div_div_eq_div_mul, ← pow_succ]
      have hk2 : i / 2 ^ (l + 1) < 2 ^ (d - (l + 1)) :=
        div_pow_lt (l + 1) hi2 (by omega)
      have hc := hcons (l + 1) (i / 2 ^ (l + 1)) (by omega) (by omega) hk2
      rw [Nat.add_sub_cancel] at hc
      rw [hc, hx, hdd]
    rw [hmid, hget (l + 1) (by omega)]
    exact pathPair_mem t.hashes_ _
  · rw [hdep]
    rw [hget (d - 1) (by omega),
      pathPair_compress compress t.hashes_ (levelStart d (d - 1) + i / 2 ^ (d - 1))]
    have hklt : i / 2 ^ (d - 1) < 2 := by
      have h := div_pow_lt (d - 1) hi2 (by omega)
      rw [show d - (d - 1) = 1 from by omega, pow_one] at h
      exact h
    have hx : 2 * ((levelStart d (d - 1) + i / 2 ^ (d - 1)) / 2) =
        levelStart d (d - 1) := by
      have he := levelStart_even d (show d - 1 ≤ d by omega)
      obtain ⟨f, hfe⟩ : ∃ f, i / 2 ^ (d - 1) = f := ⟨_, rfl⟩
      rw [hfe] at hklt ⊢
      omega
    rw [hx]
    have hpred := levelStart_pred d hd
    have epow : 2 ^ (d + 1) = 2 * 2 ^ d := by rw [pow_succ]; ring
    have h2d : 2 ≤ 2 ^ d := by
      calc (2 : Nat) = 2 ^ 1 := by norm_num
      _ ≤ 2 ^ d := Nat.pow_le_pow_right (by omega) hd
    have hroot := hwf.root_eq
    rw [hdep] at hroot
    rw [hroot]
    rw [show levelStart d (d - 1) = 2 ^ (d + 1) - 2 - 2 from by omega,
      show 2 ^ (d + 1) - 2 - 2 + 1 = 2 ^ (d + 1) - 2 - 1 from by omega]

/-- C2 witness: the fresh depth-2 tree (an empty insertion sequence) with
the concrete primitives, queried at its occupied index 0. -/
theorem C2_witness :
    ((1 : Nat) ≤ 2 ∧ (2 : Nat) ≤ 32 ∧
      insertAll cHash cCompress (construct cHash cCompress 2) [] =
        some (construct cHash cCompress 2) ∧
      0 < (construct cHash cCompress 2).leaves_.length) ∧
    ((get_hash_path (construct cHash cCompress 2) 0).1.length =
        (construct cHash cCompress 2).depth_ ∧
      ((construct cHash cCompress 2).hashes_ 0 =
          ((get_hash_path (construct cHash cCompress 2) 0).1.getD 0 (0, 0)).1 ∨
        (construct cHash cCompress 2).hashes_ 0 =
          ((get_hash_path (construct cHash cCompress 2) 0).1.getD 0 (0, 0)).2) ∧
      (∀ l, l + 1 < (construct cHash cCompress 2).depth_ →
        cCompress
            ((get_hash_path (construct cHash cCompress 2) 0).1.getD l (0, 0)).1
            ((get_hash_path (construct cHash cCompress 2) 0).1.getD l (0, 0)).2 =
          ((get_hash_path (construct cHash cCompress 2) 0).1.getD (l + 1)
            (0, 0)).1 ∨
        cCompress
            ((get_hash_path (construct cHash cCompress 2) 0).1.getD l (0, 0)).1
            ((get_hash_path (construct cHash cCompress 2) 0).1.getD l (0, 0)).2 =
          ((get_hash_path (construct cHash cCompress 2) 0).1.getD (l + 1)
            (0, 0)).2) ∧
      cCompress
          ((get_hash_path (construct cHash cCompress 2) 0).1.getD
            ((construct cHash cCompress 2).depth_ - 1) (0, 0)).1
          ((get_hash_path (construct cHash cCompress 2) 0).1.getD
            ((construct cHash cCompress 2).depth_ - 1) (0, 0)).2 =
        (construct cHash cCompress 2).root_) :=
  ⟨⟨by decide, by decide, rfl, by decide⟩,
    C2_hash_path_root cHash cCompress 2 (by decide) (by decide) []
      (construct cHash cCompress 2) rfl 0 (by decide)⟩

/-- C5 counterexample: a further insertion into a full tree is not
rejected with a capacity error.  On a full depth-1 tree (sentinel plus the
inserted 7), inserting 9 returns `some (0, ·)` — the very same constant
`fr(0)` that the earlier, successful insertion of 7 returned — and leaves
the leaf table unchanged: the caller receives no error signal
distinguishing the dropped value from a successful insert. -/
theorem C5_counterexample :
    (insertAll cHash cCompress (construct cHash cCompress 1) [7]).map
        (fun t => (t.leaves_.length, t.total_size_)) = some (2, 2) ∧
    (update_element cHash cCompress (construct cHash cCompress 1) 7).map
        Prod.fst = some 0 ∧
    ((insertAll cHash cCompress (construct cHash cCompress 1) [7]).bind
        (fun t => update_element cHash cCompress t 9)).map Prod.fst = some 0 ∧
    ((insertAll cHash cCompress (construct cHash cCompress 1) [7]).bind
        (fun t => update_element cHash cCompress t 9)).map
        (fun p => p.2.leaves_) =
      (insertAll cHash cCompress (construct cHash cCompress 1) [7]).map
        Tree.leaves_ := by
  refine ⟨by decide, by decide, by decide, by decide⟩

/-- C6 counterexample: the faithful model of the constructor's table loop
(in which `1 << n` on a 32-bit `int` has a defined positive value only for
shift counts below 31) agrees with the idealized table at depth 30, but
has no value at depths 31 and 32 — the first loop iteration shifts by 31
resp. 32 — so the constructor corrupts `level_str_idxs_` there and the
empty-tree root constant is not computed on the claim's full range
`[1, 32]`. -/
theorem C6_counterexample :
    levelStrIdxsC 30 = some (levelStrIdxs 30) ∧
    levelStrIdxsC 31 = none ∧
    levelStrIdxsC 32 = none := by
  refine ⟨by decide, by decide, by decide⟩

end IMT
